import Mathlib

/-!
Verification of the `mos` Bitcask-style key-value storage engine
(`storage/engine`): record codec, data-file access, tail recovery,
index rebuild, index/meta persistence, and the in-memory engine
operations Put/Get/Delete, shallowly embedded over `List Nat` byte
sequences.  Machine integers are modelled as `Nat`/`Int` with explicit
reductions modulo `2 ^ 16`, `2 ^ 32`, `2 ^ 64` at the points where the
Go source performs fixed-width arithmetic, and operations that can
panic or return an error in Go return `Option`.
-/

set_option maxRecDepth 100000

namespace Mos

/-! ### Byte-level primitives (package `encoding/binary`, big endian) -/

/-- `binary.BigEndian.PutUint16`: the two big-endian bytes of `v`. -/
def u16be (v : Nat) : List Nat := [v / 256 % 256, v % 256]

/-- `binary.BigEndian.PutUint32`: the four big-endian bytes of `v`. -/
def u32be (v : Nat) : List Nat :=
  [v / 16777216 % 256, v / 65536 % 256, v / 256 % 256, v % 256]

/-- `binary.BigEndian.PutUint64`: the eight big-endian bytes of `v`. -/
def u64be (v : Nat) : List Nat :=
  [v / 2 ^ 56 % 256, v / 2 ^ 48 % 256, v / 2 ^ 40 % 256, v / 2 ^ 32 % 256,
   v / 2 ^ 24 % 256, v / 2 ^ 16 % 256, v / 2 ^ 8 % 256, v % 256]

/-- `binary.BigEndian.Uint16` on the first two bytes of `l`. -/
def be16 (l : List Nat) : Nat := l.getD 0 0 * 256 + l.getD 1 0

/-- `binary.BigEndian.Uint32` on the first four bytes of `l`. -/
def be32 (l : List Nat) : Nat :=
  ((l.getD 0 0 * 256 + l.getD 1 0) * 256 + l.getD 2 0) * 256 + l.getD 3 0

/-- `binary.BigEndian.Uint64` on the first eight bytes of `l`. -/
def be64 (l : List Nat) : Nat :=
  l.getD 0 0 * 2 ^ 56 + l.getD 1 0 * 2 ^ 48 + l.getD 2 0 * 2 ^ 40 +
  l.getD 3 0 * 2 ^ 32 + l.getD 4 0 * 2 ^ 24 + l.getD 5 0 * 2 ^ 16 +
  l.getD 6 0 * 2 ^ 8 + l.getD 7 0

/-! ### CRC-32/IEEE (`hash/crc32.ChecksumIEEE`), bitwise reference form -/

/-- The reversed CRC-32/IEEE polynomial `0xEDB88320`. -/
def crcPoly : Nat := 3988292384

/-- One bit step of the CRC-32 shift register. -/
def crcBit (crc : Nat) : Nat :=
  if crc % 2 = 1 then (crc / 2) ^^^ crcPoly else crc / 2

/-- Absorb one byte into the running CRC. -/
def crcByte (crc b : Nat) : Nat :=
  crcBit (crcBit (crcBit (crcBit (crcBit (crcBit (crcBit (crcBit (crc ^^^ b % 256))))))))

/-- `crc32.ChecksumIEEE`: initial value and final xor are `0xFFFFFFFF`. -/
def crc32 (data : List Nat) : Nat :=
  (data.foldl crcByte 4294967295) ^^^ 4294967295

theorem crcBit_lt (crc : Nat) (h : crc < 2 ^ 32) : crcBit crc < 2 ^ 32 := by
  unfold crcBit
  have h2 : crc / 2 < 2 ^ 32 := lt_of_le_of_lt (Nat.div_le_self _ _) h
  split
  · exact Nat.xor_lt_two_pow h2 (by norm_num [crcPoly])
  · exact h2

theorem crcByte_lt (crc b : Nat) (h : crc < 2 ^ 32) : crcByte crc b < 2 ^ 32 := by
  unfold crcByte
  have h0 : crc ^^^ b % 256 < 2 ^ 32 :=
    Nat.xor_lt_two_pow h (lt_of_lt_of_le (Nat.mod_lt _ (by norm_num)) (by norm_num))
  exact crcBit_lt _ (crcBit_lt _ (crcBit_lt _ (crcBit_lt _ (crcBit_lt _ (crcBit_lt _
    (crcBit_lt _ (crcBit_lt _ h0)))))))

theorem crc32_lt (data : List Nat) : crc32 data < 2 ^ 32 := by
  unfold crc32
  have h : ∀ (l : List Nat) (a : Nat), a < 2 ^ 32 → l.foldl crcByte a < 2 ^ 32 := by
    intro l
    induction l with
    | nil => intro a ha; simpa using ha
    | cons x xs ih => intro a ha; exact ih _ (crcByte_lt _ _ ha)
  exact Nat.xor_lt_two_pow (h data 4294967295 (by norm_num)) (by norm_num)

/-! ### The record codec (`storage/engine/record.go`) -/

/-- `Record` from `record.go`: `flag` is a byte, `ksize` a `uint16`,
`vsize` a `uint32`, `checksum` a `uint32`. -/
structure Record where
  flag : Nat
  ksize : Nat
  vsize : Nat
  key : List Nat
  value : List Nat
  checksum : Nat
deriving Repr, DecidableEq

/-- `NewRecordWithoutChecksum`: `uint16(len(key))` and `uint32(len(value))`
truncate the lengths modulo `2 ^ 16` and `2 ^ 32`. -/
def NewRecordWithoutChecksum (flag : Nat) (key value : List Nat) : Record :=
  { flag := flag
    ksize := key.length % 65536
    vsize := value.length % 4294967296
    key := key
    value := value
    checksum := 0 }

/-- `generateChecksum`: CRC-32 of
`flag | ksize(u16 BE) | vsize(u32 BE) | key | value`, with the sizes
recomputed from the actual slice lengths. -/
def generateChecksum (flag : Nat) (key value : List Nat) : Nat :=
  crc32 (flag :: (u16be (key.length % 65536) ++ u32be (value.length % 4294967296) ++
    key ++ value))

/-- `Record.Size`: full on-disk length `7 + len(key) + len(value) + 4`. -/
def Record.recSize (r : Record) : Nat := 7 + r.key.length + r.value.length + 4

/-- `Record.Value`. -/
def Record.recValue (r : Record) : List Nat := r.value

/-- `Record.Corrupted`: the stored checksum differs from the recomputed one. -/
def Record.Corrupted (r : Record) : Bool :=
  r.checksum != generateChecksum r.flag r.key r.value

/-- `Record.IsDeleted`: bit 0 of the flag byte. -/
def Record.IsDeleted (r : Record) : Bool := r.flag % 2 = 1

/-- `Record.SetDeleted`: set bit 0 of the flag byte. -/
def Record.SetDeleted (r : Record) : Record := { r with flag := r.flag ||| 1 }

/-- `copy(dst[lo:hi], src)` on a Go slice: overwrite
`min (hi - lo) src.length` bytes of `dst` starting at `lo`.  Callers
check the slice bounds `lo ≤ hi ≤ dst.length` themselves (a violation
panics in Go and is mapped to `none` at the call site). -/
def blit (dst : List Nat) (lo hi : Nat) (src : List Nat) : List Nat :=
  dst.take lo ++ src.take (hi - lo) ++ dst.drop (lo + (src.take (hi - lo)).length)

/-- `EncodeRecordWithChecksum`.  The Go source computes
`valueStart := keyBegin + record.ksize` in `uint16` arithmetic and
`checksumStart := uint32(valueStart) + record.vsize` in `uint32`
arithmetic; a wrapped offset makes a slice expression panic, which this
model returns as `none`. -/
def EncodeRecordWithChecksum (record : Record) : Option (List Nat) :=
  let n := 7 + record.key.length + record.value.length + 4
  let buf0 := List.replicate n 0
  let buf1 := blit buf0 0 1 [record.flag]
  let buf2 := blit buf1 1 3 (u16be record.ksize)
  let buf3 := blit buf2 3 7 (u32be record.vsize)
  let valueStart := (7 + record.ksize) % 65536
  let checksumStart := (valueStart + record.vsize) % 4294967296
  if valueStart < 7 then none
  else if n < valueStart then none
  else
    let buf4 := blit buf3 7 valueStart record.key
    if checksumStart < valueStart then none
    else if n < checksumStart then none
    else
      let buf5 := blit buf4 valueStart checksumStart record.value
      let checksum := crc32 (buf5.take checksumStart)
      let csEnd := (checksumStart + 4) % 4294967296
      if csEnd < checksumStart then none
      else if n < csEnd then none
      else some (blit buf5 checksumStart csEnd (u32be checksum))

/-- `DecodeRecord`.  Mirrors the source: read header fields, then slice
out key, value and stored checksum with the same `uint16`/`uint32`
offset arithmetic; any out-of-bounds slice is a Go panic, `none` here. -/
def DecodeRecord (bytes : List Nat) : Option Record :=
  if bytes.length < 7 then none
  else
    let flag := bytes.getD 0 0
    let ksize := be16 (bytes.drop 1)
    let vsize := be32 (bytes.drop 3)
    let valueStart := (7 + ksize) % 65536
    let checksumStart := (valueStart + vsize) % 4294967296
    if valueStart < 7 then none
    else if bytes.length < valueStart then none
    else if checksumStart < valueStart then none
    else if bytes.length < checksumStart then none
    else
      let csEnd := (checksumStart + 4) % 4294967296
      if csEnd < checksumStart then none
      else if bytes.length < csEnd then none
      else
        some { flag := flag
               ksize := ksize
               vsize := vsize
               key := (bytes.drop 7).take (valueStart - 7)
               value := (bytes.drop valueStart).take (checksumStart - valueStart)
               checksum := be32 (bytes.drop checksumStart) }

/-! ### Symbolic characterization of the codec -/

/-- The checksummed region that `EncodeRecordWithChecksum` lays out for a
record built by `NewRecordWithoutChecksum`:
`flag | ksize | vsize | key.take ksize | value.take vsize`. -/
def encFront (flag : Nat) (key value : List Nat) : List Nat :=
  flag :: (u16be (key.length % 65536) ++ (u32be (value.length % 4294967296) ++
    (key.take (key.length % 65536) ++ value.take (value.length % 4294967296))))

/-- The full buffer `EncodeRecordWithChecksum` returns: the checksummed
region, the big-endian checksum, and the zero bytes left untouched when
`ksize`/`vsize` undercount the actual lengths. -/
def encBytes (flag : Nat) (key value : List Nat) : List Nat :=
  encFront flag key value ++
    (u32be (crc32 (encFront flag key value)) ++
      List.replicate ((key.length - key.length % 65536) +
        (value.length - value.length % 4294967296)) 0)

theorem be16_u16 (v : Nat) (rest : List Nat) (h : v < 65536) :
    be16 (u16be v ++ rest) = v := by
  simp only [u16be, List.cons_append, List.nil_append, be16,
    List.getD_cons_zero, List.getD_cons_succ]
  omega

theorem be32_u32 (v : Nat) (rest : List Nat) (h : v < 4294967296) :
    be32 (u32be v ++ rest) = v := by
  simp only [u32be, List.cons_append, List.nil_append, be32,
    List.getD_cons_zero, List.getD_cons_succ]
  omega

theorem blit_split (a b src : List Nat) (k : Nat) (hk : k ≤ src.length) :
    blit (a ++ b) a.length (a.length + k) src = a ++ (src.take k ++ b.drop k) := by
  unfold blit
  rw [Nat.add_sub_cancel_left, List.take_left, List.length_take_of_le hk,
    ← List.drop_drop, List.drop_left, List.append_assoc]

theorem encFront_length (flag : Nat) (key value : List Nat) :
    (encFront flag key value).length =
      7 + key.length % 65536 + value.length % 4294967296 := by
  simp [encFront, u16be, u32be,
    List.length_take_of_le (Nat.mod_le key.length 65536),
    List.length_take_of_le (Nat.mod_le value.length 4294967296)]
  omega

theorem encBytes_length (flag : Nat) (key value : List Nat) :
    (encBytes flag key value).length = 7 + key.length + value.length + 4 := by
  have hk := Nat.mod_le key.length 65536
  have hv := Nat.mod_le value.length 4294967296
  simp [encBytes, encFront_length, u32be]
  omega

/-- `EncodeRecordWithChecksum` succeeds on a constructor-built record as
long as the `uint16` offset `keyBegin + ksize` and the `uint32` offset
`checksumStart + 4` do not wrap, and then produces `encBytes`. -/
theorem EncodeRecordWithChecksum_eq (flag : Nat) (key value : List Nat)
    (hks : key.length % 65536 ≤ 65528)
    (hcs : 7 + key.length % 65536 + value.length % 4294967296 + 4 < 4294967296) :
    EncodeRecordWithChecksum (NewRecordWithoutChecksum flag key value) =
      some (encBytes flag key value) := by
  have hkle : key.length % 65536 ≤ key.length := Nat.mod_le _ _
  have hvle : value.length % 4294967296 ≤ value.length := Nat.mod_le _ _
  set ks := key.length % 65536 with hksd
  set vs := value.length % 4294967296 with hvsd
  set n := 7 + key.length + value.length + 4 with hnd
  have hm1 : (7 + ks) % 65536 = 7 + ks := Nat.mod_eq_of_lt (by omega)
  have hm2 : (7 + ks + vs) % 4294967296 = 7 + ks + vs := Nat.mod_eq_of_lt (by omega)
  have hm3 : (7 + ks + vs + 4) % 4294967296 = 7 + ks + vs + 4 :=
    Nat.mod_eq_of_lt (by omega)
  simp only [EncodeRecordWithChecksum, NewRecordWithoutChecksum, ← hksd, ← hvsd, ← hnd,
    hm1, hm2, hm3]
  rw [if_neg (by omega), if_neg (by omega), if_neg (by omega), if_neg (by omega),
    if_neg (by omega), if_neg (by omega)]
  have e1 : blit (List.replicate n 0) 0 1 [flag] = flag :: List.replicate (n - 1) 0 := by
    have h := blit_split [] (List.replicate n 0) [flag] 1 (by simp)
    simpa [List.drop_replicate] using h
  have e2 : blit (flag :: List.replicate (n - 1) 0) 1 3 (u16be ks) =
      flag :: (u16be ks ++ List.replicate (n - 3) 0) := by
    have h := blit_split [flag] (List.replicate (n - 1) 0) (u16be ks) 2 (by simp [u16be])
    simpa [List.drop_replicate, u16be, Nat.sub_sub] using h
  have e3 : blit (flag :: (u16be ks ++ List.replicate (n - 3) 0)) 3 7 (u32be vs) =
      flag :: (u16be ks ++ (u32be vs ++ List.replicate (n - 7) 0)) := by
    have h := blit_split (flag :: u16be ks) (List.replicate (n - 3) 0) (u32be vs) 4
      (by simp [u32be])
    simpa [List.drop_replicate, u16be, u32be, Nat.sub_sub] using h
  have e4 : blit (flag :: (u16be ks ++ (u32be vs ++ List.replicate (n - 7) 0))) 7 (7 + ks)
      key =
      flag :: (u16be ks ++ (u32be vs ++ (key.take ks ++ List.replicate (n - 7 - ks) 0))) := by
    have h := blit_split (flag :: (u16be ks ++ u32be vs)) (List.replicate (n - 7) 0) key ks
      hkle
    simpa [List.drop_replicate, u16be, u32be, Nat.sub_sub] using h
  have e5 : blit
      (flag :: (u16be ks ++ (u32be vs ++ (key.take ks ++ List.replicate (n - 7 - ks) 0))))
      (7 + ks) (7 + ks + vs) value =
      flag :: (u16be ks ++ (u32be vs ++ (key.take ks ++
        (value.take vs ++ List.replicate (n - 7 - ks - vs) 0)))) := by
    have h := blit_split (flag :: (u16be ks ++ (u32be vs ++ key.take ks)))
      (List.replicate (n - 7 - ks) 0) value vs hvle
    have hlen : (flag :: (u16be ks ++ (u32be vs ++ key.take ks))).length = 7 + ks := by
      simp [u16be, u32be, List.length_take_of_le hkle]; omega
    rw [hlen] at h
    simpa [List.drop_replicate, Nat.sub_sub] using h
  have e6 : (flag :: (u16be ks ++ (u32be vs ++ (key.take ks ++
      (value.take vs ++ List.replicate (n - 7 - ks - vs) 0))))).take (7 + ks + vs) =
      encFront flag key value := by
    have h := @List.take_left' Nat
      (flag :: (u16be ks ++ (u32be vs ++ (key.take ks ++ value.take vs))))
      (List.replicate (n - 7 - ks - vs) 0)
      (7 + ks + vs)
      (by simp [u16be, u32be, List.length_take_of_le hkle, List.length_take_of_le hvle]
          omega)
    simpa [encFront, ← hksd, ← hvsd] using h
  have e7 : blit
      (flag :: (u16be ks ++ (u32be vs ++ (key.take ks ++
        (value.take vs ++ List.replicate (n - 7 - ks - vs) 0)))))
      (7 + ks + vs) (7 + ks + vs + 4) (u32be (crc32 (encFront flag key value))) =
      encBytes flag key value := by
    have h := blit_split (flag :: (u16be ks ++ (u32be vs ++ (key.take ks ++ value.take vs))))
      (List.replicate (n - 7 - ks - vs) 0) (u32be (crc32 (encFront flag key value))) 4
      (by simp [u32be])
    have hlen : (flag :: (u16be ks ++ (u32be vs ++ (key.take ks ++ value.take vs)))).length =
        7 + ks + vs := by
      simp [u16be, u32be, List.length_take_of_le hkle, List.length_take_of_le hvle]; omega
    rw [hlen] at h
    have h1 : (u32be (crc32 (encFront flag key value))).take 4 =
        u32be (crc32 (encFront flag key value)) := by simp [u32be]
    have h2 : (List.replicate (n - 7 - ks - vs) 0).drop 4 =
        List.replicate ((key.length - ks) + (value.length - vs)) 0 := by
      rw [List.drop_replicate]; congr 1; omega
    rw [h1, h2] at h
    simpa [List.cons_append, List.append_assoc, encBytes, encFront, ← hksd, ← hvsd] using h
  rw [e1, e2, e3, e4, e5, e6, e7]

/-- `DecodeRecord` on any buffer laid out as
`flag | ksize | vsize | key | value | rest` recovers the fields, reading
the stored checksum from the first four bytes of `rest`. -/
theorem DecodeRecord_layout (flag ks vs : Nat) (kpart vpart rest : List Nat)
    (hkp : kpart.length = ks) (hvp : vpart.length = vs)
    (hks : ks ≤ 65528) (hvs : vs < 4294967296)
    (hcs : 7 + ks + vs + 4 < 4294967296) (hrest : 4 ≤ rest.length) :
    DecodeRecord (flag :: (u16be ks ++ (u32be vs ++ (kpart ++ (vpart ++ rest))))) =
      some { flag := flag, ksize := ks, vsize := vs, key := kpart, value := vpart,
             checksum := be32 rest } := by
  set B := flag :: (u16be ks ++ (u32be vs ++ (kpart ++ (vpart ++ rest)))) with hB
  have hlen : B.length = 7 + ks + vs + rest.length := by
    simp [hB, u16be, u32be, hkp, hvp]; omega
  have hflag : B.getD 0 0 = flag := by rw [hB]; simp
  have hd1 : B.drop 1 = u16be ks ++ (u32be vs ++ (kpart ++ (vpart ++ rest))) := rfl
  have hd3 : B.drop 3 = u32be vs ++ (kpart ++ (vpart ++ rest)) := by
    rw [hB]; simp [u16be]
  have hd7 : B.drop 7 = kpart ++ (vpart ++ rest) := by
    rw [hB]; simp [u16be, u32be]
  have hdA : B.drop (7 + ks) = vpart ++ rest := by
    have hsplit : B = (flag :: (u16be ks ++ (u32be vs ++ kpart))) ++ (vpart ++ rest) := by
      rw [hB]; simp [List.cons_append, List.append_assoc]
    rw [hsplit, List.drop_left' (by simp [u16be, u32be, hkp]; omega)]
  have hdC : B.drop (7 + ks + vs) = rest := by
    have hsplit : B = (flag :: (u16be ks ++ (u32be vs ++ (kpart ++ vpart)))) ++ rest := by
      rw [hB]; simp [List.cons_append, List.append_assoc]
    rw [hsplit, List.drop_left' (by simp [u16be, u32be, hkp, hvp]; omega)]
  have hbe16 : be16 (B.drop 1) = ks := by rw [hd1, be16_u16 _ _ (by omega)]
  have hbe32 : be32 (B.drop 3) = vs := by rw [hd3, be32_u32 _ _ hvs]
  simp only [DecodeRecord, hlen, hflag, hbe16, hbe32,
    Nat.mod_eq_of_lt (show 7 + ks < 65536 by omega),
    Nat.mod_eq_of_lt (show 7 + ks + vs < 4294967296 by omega),
    Nat.mod_eq_of_lt (show 7 + ks + vs + 4 < 4294967296 by omega),
    hd7, hdA, hdC, Nat.add_sub_cancel_left, List.take_left' hkp, List.take_left' hvp]
  rw [if_neg (by omega), if_neg (by omega), if_neg (by omega), if_neg (by omega),
    if_neg (by omega), if_neg (by omega), if_neg (by omega)]

/-- The record that decoding an `encBytes` buffer produces: key and value
are truncated to the sizes stored in the header. -/
def decRec (flag : Nat) (key value : List Nat) : Record :=
  { flag := flag
    ksize := key.length % 65536
    vsize := value.length % 4294967296
    key := key.take (key.length % 65536)
    value := value.take (value.length % 4294967296)
    checksum := crc32 (encFront flag key value) }

theorem DecodeRecord_encBytes (flag : Nat) (key value : List Nat)
    (hks : key.length % 65536 ≤ 65528)
    (hcs : 7 + key.length % 65536 + value.length % 4294967296 + 4 < 4294967296) :
    DecodeRecord (encBytes flag key value) = some (decRec flag key value) := by
  set ks := key.length % 65536 with hksd
  set vs := value.length % 4294967296 with hvsd
  have hshape : encBytes flag key value =
      flag :: (u16be ks ++ (u32be vs ++ (key.take ks ++ (value.take vs ++
        (u32be (crc32 (encFront flag key value)) ++
          List.replicate ((key.length - ks) + (value.length - vs)) 0))))) := by
    simp only [encBytes, encFront, ← hksd, ← hvsd, List.cons_append, List.append_assoc]
  have h := DecodeRecord_layout flag ks vs (key.take ks) (value.take vs)
    (u32be (crc32 (encFront flag key value)) ++
      List.replicate ((key.length - ks) + (value.length - vs)) 0)
    (List.length_take_of_le (Nat.mod_le _ _)) (List.length_take_of_le (Nat.mod_le _ _))
    hks (by omega) hcs (by simp [u32be])
  rw [hshape, h, be32_u32 _ _ (crc32_lt _)]
  rfl

theorem decRec_corrupted (flag : Nat) (key value : List Nat) :
    (decRec flag key value).Corrupted = false := by
  have hks : key.length % 65536 < 65536 := Nat.mod_lt _ (by norm_num)
  have hvs : value.length % 4294967296 < 4294967296 := Nat.mod_lt _ (by norm_num)
  have hkt : (key.take (key.length % 65536)).length = key.length % 65536 :=
    List.length_take_of_le (Nat.mod_le _ _)
  have hvt : (value.take (value.length % 4294967296)).length =
      value.length % 4294967296 :=
    List.length_take_of_le (Nat.mod_le _ _)
  simp only [Record.Corrupted, decRec, bne_eq_false_iff_eq]
  unfold generateChecksum
  congr 1
  simp only [hkt, hvt, Nat.mod_eq_of_lt hks, Nat.mod_eq_of_lt hvs, encFront,
    List.append_assoc]

/-- Full round trip on the domain where the header sizes are exact. -/
theorem DecodeRecord_encBytes_exact (flag : Nat) (key value : List Nat)
    (hk : key.length ≤ 65528) (hv : value.length < 4294967296)
    (hcs : 7 + key.length + value.length + 4 < 4294967296) :
    DecodeRecord (encBytes flag key value) =
      some { flag := flag, ksize := key.length, vsize := value.length, key := key,
             value := value, checksum := crc32 (encFront flag key value) } := by
  have hks : key.length % 65536 = key.length := Nat.mod_eq_of_lt (by omega)
  have hvs : value.length % 4294967296 = value.length := Nat.mod_eq_of_lt hv
  rw [DecodeRecord_encBytes flag key value (by omega) (by omega)]
  simp [decRec, hks, hvs, List.take_length]

/-! ### Data files (`storage/engine/datafile.go`)

A `DataFile` is its id, its byte content, and whether it was opened
read-only (read-only files reject appends).  `os.File.ReadAt` returns
`io.EOF` whenever fewer than the requested bytes are available, which
the model folds into `none`. -/

structure DFile where
  id : Nat
  content : List Nat
  readOnly : Bool
deriving Repr, DecidableEq

/-- The outcome of one `DataFile.ReadRecordAt` call: a record, the
`io.EOF` error of a short read, or the runtime panic at
`payload[:ksize]` when the wrapped `uint32` payload size is smaller
than `ksize`. -/
inductive ReadOutcome where
  | ok (r : Record)
  | eof
  | crash
deriving Repr, DecidableEq

/-- `DataFile.ReadRecordAt`: read the 7-byte header, then
`uint32(ksize) + vsize` payload bytes (`uint32` addition, so it can
wrap), then the 4-byte checksum; build the record without verifying the
checksum.  Every short read is the `io.EOF` error (`.eof`); when all
three reads succeed but the wrapped payload size is smaller than
`ksize`, the slice `payload[:ksize]` panics (`.crash`). -/
def ReadRecordAt (content : List Nat) (offset : Nat) : ReadOutcome :=
  if content.length < offset + 7 then .eof
  else
    let flag := content.getD offset 0
    let ksize := be16 (content.drop (offset + 1))
    let vsize := be32 (content.drop (offset + 3))
    let psize := (ksize + vsize) % 4294967296
    if content.length < offset + 7 + psize then .eof
    else if content.length < offset + 7 + psize + 4 then .eof
    else if psize < ksize then .crash
    else
      let payload := (content.drop (offset + 7)).take psize
      .ok { flag := flag
            ksize := ksize
            vsize := vsize
            key := payload.take ksize
            value := payload.drop ksize
            checksum := be32 (content.drop (offset + 7 + psize)) }

/-- `DataFile.ReadEntireRecordAt`: one read of `size` bytes at `offset`,
then `DecodeRecord`. -/
def ReadEntireRecordAt (content : List Nat) (offset size : Nat) : Option Record :=
  if content.length < offset + size then none
  else DecodeRecord ((content.drop offset).take size)

/-- `DataFile.AppendRecord`: fails on a read-only file, encodes the
record (panic modelled as `none`) and writes it at the end, returning
the pre-write offset and the byte count written. -/
def AppendRecord (df : DFile) (record : Record) : Option (DFile × Nat × Nat) :=
  if df.readOnly then none
  else
    match EncodeRecordWithChecksum record with
    | none => none
    | some bytes =>
      some ({ df with content := df.content ++ bytes }, df.content.length, bytes.length)

theorem ReadRecordAt_bounds {content : List Nat} {offset : Nat} {r : Record}
    (h : ReadRecordAt content offset = ReadOutcome.ok r) :
    11 ≤ r.recSize ∧ offset + r.recSize ≤ content.length := by
  simp only [ReadRecordAt] at h
  split at h
  · exact absurd h (by simp)
  · rename_i h7
    split at h
    · exact absurd h (by simp)
    · split at h
      · exact absurd h (by simp)
      · split at h
        · exact absurd h (by simp)
        · rename_i hp h4 hk
          have h9 := ReadOutcome.ok.inj h
          subst h9
          unfold Record.recSize
          simp only []
          set ks := be16 (content.drop (offset + 1))
          set vs := be32 (content.drop (offset + 3))
          set ps := (ks + vs) % 4294967296 with hps
          have hplen : ((content.drop (offset + 7)).take ps).length = ps := by
            rw [List.length_take, List.length_drop]
            omega
          rw [List.length_take, List.length_drop, hplen]
          omega

theorem ReadRecordAt_eof_of_short {content : List Nat} {offset : Nat}
    (h : content.length < offset + 7) : ReadRecordAt content offset = ReadOutcome.eof := by
  unfold ReadRecordAt
  rw [if_pos h]

/-- Fuel-indexed version of the `RecoverDataFile` scan loop; the fuel
only bounds the recursion depth (each iteration consumes at least 11
bytes), so any fuel above `content.length + 1 - offset` computes the
loop exactly — see `recoverLoop_eq`.  `none` is the runtime panic
inside `ReadRecordAt`, which crashes the whole recovery. -/
def recoverLoopAux : Nat → List Nat → Nat → Option Nat
  | 0, _, offset => some offset
  | fuel + 1, content, offset =>
    match ReadRecordAt content offset with
    | .eof => some offset
    | .crash => none
    | .ok r =>
      if r.Corrupted then some offset
      else recoverLoopAux fuel content (offset + r.recSize)

/-- The offset at which the sequential scan of `RecoverDataFile` stops:
advance over records as long as they read fully and pass the checksum;
`none` when some read panics. -/
def recoverLoop (content : List Nat) (offset : Nat) : Option Nat :=
  recoverLoopAux (content.length + 1 - offset) content offset

theorem recoverLoopAux_congr :
    ∀ f1 f2 (content : List Nat) (offset : Nat),
      content.length + 1 - offset ≤ f1 → content.length + 1 - offset ≤ f2 →
      recoverLoopAux f1 content offset = recoverLoopAux f2 content offset := by
  intro f1
  induction f1 with
  | zero =>
    intro f2 content offset h1 h2
    cases f2 with
    | zero => rfl
    | succ f2 =>
      show some offset = recoverLoopAux (f2 + 1) content offset
      rw [show recoverLoopAux (f2 + 1) content offset =
        match ReadRecordAt content offset with
        | .eof => some offset
        | .crash => none
        | .ok r =>
          if r.Corrupted then some offset
          else recoverLoopAux f2 content (offset + r.recSize) from rfl,
        ReadRecordAt_eof_of_short (by omega)]
  | succ f1 ih =>
    intro f2 content offset h1 h2
    cases f2 with
    | zero =>
      show recoverLoopAux (f1 + 1) content offset = some offset
      rw [show recoverLoopAux (f1 + 1) content offset =
        match ReadRecordAt content offset with
        | .eof => some offset
        | .crash => none
        | .ok r =>
          if r.Corrupted then some offset
          else recoverLoopAux f1 content (offset + r.recSize) from rfl,
        ReadRecordAt_eof_of_short (by omega)]
    | succ f2 =>
      simp only [recoverLoopAux]
      cases hr : ReadRecordAt content offset with
      | eof => rfl
      | crash => rfl
      | ok r =>
        show (if r.Corrupted then some offset
            else recoverLoopAux f1 content (offset + r.recSize)) =
          (if r.Corrupted then some offset
            else recoverLoopAux f2 content (offset + r.recSize))
        by_cases hc : r.Corrupted
        · rw [if_pos hc, if_pos hc]
        · rw [if_neg hc, if_neg hc]
          have hb := ReadRecordAt_bounds hr
          exact ih f2 content (offset + r.recSize) (by omega) (by omega)

/-- The Go loop equation of `RecoverDataFile` (datafile.go lines
236-248): stop on `io.EOF` or a corrupted record, propagate the read
panic, otherwise skip the record and continue. -/
theorem recoverLoop_eq (content : List Nat) (offset : Nat) :
    recoverLoop content offset =
      match ReadRecordAt content offset with
      | .eof => some offset
      | .crash => none
      | .ok r =>
        if r.Corrupted then some offset
        else recoverLoop content (offset + r.recSize) := by
  unfold recoverLoop
  cases hL : content.length + 1 - offset with
  | zero =>
    rw [show recoverLoopAux 0 content offset = some offset from rfl,
      ReadRecordAt_eof_of_short (by omega)]
  | succ f =>
    simp only [recoverLoopAux]
    cases hr : ReadRecordAt content offset with
    | eof => rfl
    | crash => rfl
    | ok r =>
      show (if r.Corrupted then some offset
          else recoverLoopAux f content (offset + r.recSize)) =
        (if r.Corrupted then some offset
          else recoverLoop content (offset + r.recSize))
      by_cases hc : r.Corrupted
      · rw [if_pos hc, if_pos hc]
      · rw [if_neg hc, if_neg hc]
        have hb := ReadRecordAt_bounds hr
        show recoverLoopAux f content (offset + r.recSize) =
          recoverLoopAux (content.length + 1 - (offset + r.recSize)) content
            (offset + r.recSize)
        exact recoverLoopAux_congr f (content.length + 1 - (offset + r.recSize))
          content (offset + r.recSize) (by omega) (by omega)

/-- `RecoverDataFile`: scan from offset 0 (`none` when a read at some
offset panics — the Go program crashes without truncating or
returning); if the scan stops exactly at the end of the file, report no
truncation and leave the file unchanged, otherwise rewrite the file
with exactly the scanned prefix and report truncation.  Returns
`(recovered, new content)`. -/
def RecoverDataFile (content : List Nat) : Option (Bool × List Nat) :=
  match recoverLoop content 0 with
  | none => none
  | some offset =>
    if offset = content.length then some (false, content)
    else some (true, content.take offset)

/-! ### Index entries (`storage/engine/entry.go`) and the in-memory index

The Go index is `map[string]*Entry`; the model is an association list
from key bytes to entries with map-style lookup, upsert and delete. -/

structure Entry where
  id : Nat
  offset : Nat
  size : Nat
deriving Repr, DecidableEq

/-- `EncodeEntry`: fixed 24-byte layout `id | offset | size`, u64 BE. -/
def EncodeEntry (e : Entry) : List Nat :=
  u64be e.id ++ u64be e.offset ++ u64be e.size

/-- `DecodeEntry`. -/
def DecodeEntry (bytes : List Nat) : Entry :=
  { id := be64 bytes, offset := be64 (bytes.drop 8), size := be64 (bytes.drop 16) }

/-- The in-memory index: key bytes to entry. -/
abbrev Index : Type := List (List Nat × Entry)

/-- Go map lookup `index[string(key)]`. -/
def ilookup (index : Index) (key : List Nat) : Option Entry :=
  match index with
  | [] => none
  | (k, e) :: rest => if k = key then some e else ilookup rest key

/-- Go map assignment `index[string(key)] = entry`. -/
def iupsert (index : Index) (key : List Nat) (e : Entry) : Index :=
  match index with
  | [] => [(key, e)]
  | (k, e0) :: rest => if k = key then (key, e) :: rest else (k, e0) :: iupsert rest key e

/-- Go map deletion `delete(index, string(key))`. -/
def iremove (index : Index) (key : List Nat) : Index :=
  match index with
  | [] => []
  | (k, e0) :: rest => if k = key then iremove rest key else (k, e0) :: iremove rest key

theorem ilookup_iupsert_self (index : Index) (key : List Nat) (e : Entry) :
    ilookup (iupsert index key e) key = some e := by
  induction index with
  | nil => simp [iupsert, ilookup]
  | cons p rest ih =>
    obtain ⟨k, e0⟩ := p
    by_cases h : k = key
    · simp [iupsert, ilookup, h]
    · simp [iupsert, ilookup, h, ih]

theorem ilookup_iupsert_other (index : Index) {key key2 : List Nat} (e : Entry)
    (h : key2 ≠ key) : ilookup (iupsert index key2 e) key = ilookup index key := by
  induction index with
  | nil => simp [iupsert, ilookup, h]
  | cons p rest ih =>
    obtain ⟨k, e0⟩ := p
    by_cases hk : k = key2
    · subst hk
      simp [iupsert, ilookup, h]
    · simp [iupsert, hk, ilookup, ih]

theorem ilookup_iremove_self (index : Index) (key : List Nat) :
    ilookup (iremove index key) key = none := by
  induction index with
  | nil => simp [iremove, ilookup]
  | cons p rest ih =>
    obtain ⟨k, e0⟩ := p
    by_cases h : k = key
    · simpa [iremove, h] using ih
    · simp [iremove, ilookup, h, ih]

theorem ilookup_iremove_other (index : Index) {key key2 : List Nat}
    (h : key2 ≠ key) : ilookup (iremove index key2) key = ilookup index key := by
  induction index with
  | nil => simp [iremove, ilookup]
  | cons p rest ih =>
    obtain ⟨k, e0⟩ := p
    by_cases hk : k = key2
    · subst hk
      simp [iremove, ilookup, h, ih]
    · simp [iremove, hk, ilookup, ih]

/-! ### Index rebuild (`LoadIndexFromDataFiles`, mkv.go lines 157-205)

The Go loop reads records from offset 0.  For a tombstone it deletes the
key — and then falls through to the unconditional upsert, so the key is
re-inserted pointing at the tombstone record.  The model reproduces
this faithfully. -/

/-- Fuel-indexed version of the index-rebuild scan; any fuel above
`content.length + 1 - offset` computes the loop exactly — see
`loadScan_eq`. -/
def loadScanAux : Nat → Index → Nat → List Nat → Nat → Option Index
  | 0, index, _, _, _ => some index
  | fuel + 1, index, id, content, offset =>
    match ReadRecordAt content offset with
    | .eof => some index
    | .crash => none
    | .ok record =>
      let index2 := if record.IsDeleted then iremove index record.key else index
      let entry : Entry := { id := id, offset := offset, size := record.recSize }
      loadScanAux fuel (iupsert index2 record.key entry) id content
        (offset + record.recSize)

/-- The per-file scan shared by `LoadIndexFromDataFiles` and
`LoadIndexFromDataFile`: `io.EOF` (any short read) ends the scan, the
read panic crashes it (`none`), a tombstone deletes the key, and every
record — tombstone included — is then upserted. -/
def loadScan (index : Index) (id : Nat) (content : List Nat) (offset : Nat) :
    Option Index :=
  loadScanAux (content.length + 1 - offset) index id content offset

theorem loadScanAux_congr :
    ∀ f1 f2 (index : Index) (id : Nat) (content : List Nat) (offset : Nat),
      content.length + 1 - offset ≤ f1 → content.length + 1 - offset ≤ f2 →
      loadScanAux f1 index id content offset = loadScanAux f2 index id content offset := by
  intro f1
  induction f1 with
  | zero =>
    intro f2 index id content offset h1 h2
    cases f2 with
    | zero => rfl
    | succ f2 =>
      show some index = loadScanAux (f2 + 1) index id content offset
      rw [show loadScanAux (f2 + 1) index id content offset =
        match ReadRecordAt content offset with
        | .eof => some index
        | .crash => none
        | .ok record =>
          loadScanAux f2
            (iupsert (if record.IsDeleted then iremove index record.key else index)
              record.key { id := id, offset := offset, size := record.recSize })
            id content (offset + record.recSize) from rfl,
        ReadRecordAt_eof_of_short (by omega)]
  | succ f1 ih =>
    intro f2 index id content offset h1 h2
    cases f2 with
    | zero =>
      show loadScanAux (f1 + 1) index id content offset = some index
      rw [show loadScanAux (f1 + 1) index id content offset =
        match ReadRecordAt content offset with
        | .eof => some index
        | .crash => none
        | .ok record =>
          loadScanAux f1
            (iupsert (if record.IsDeleted then iremove index record.key else index)
              record.key { id := id, offset := offset, size := record.recSize })
            id content (offset + record.recSize) from rfl,
        ReadRecordAt_eof_of_short (by omega)]
    | succ f2 =>
      simp only [loadScanAux]
      cases hr : ReadRecordAt content offset with
      | eof => rfl
      | crash => rfl
      | ok record =>
        have hb := ReadRecordAt_bounds hr
        exact ih f2 _ id content (offset + record.recSize) (by omega) (by omega)

/-- The Go loop equation of the rebuild scan (mkv.go lines 159-178):
stop at `io.EOF`, propagate the read panic; for a tombstone delete the
key, then — tombstone or not — upsert `{file_id, offset, size}` and
skip the record. -/
theorem loadScan_eq (index : Index) (id : Nat) (content : List Nat) (offset : Nat) :
    loadScan index id content offset =
      match ReadRecordAt content offset with
      | .eof => some index
      | .crash => none
      | .ok record =>
        loadScan
          (iupsert (if record.IsDeleted then iremove index record.key else index)
            record.key { id := id, offset := offset, size := record.recSize })
          id content (offset + record.recSize) := by
  unfold loadScan
  cases hL : content.length + 1 - offset with
  | zero =>
    rw [show loadScanAux 0 index id content offset = some index from rfl,
      ReadRecordAt_eof_of_short (by omega)]
  | succ f =>
    simp only [loadScanAux]
    cases hr : ReadRecordAt content offset with
    | eof => rfl
    | crash => rfl
    | ok record =>
      have hb := ReadRecordAt_bounds hr
      exact loadScanAux_congr f (content.length + 1 - (offset + record.recSize)) _ id
        content (offset + record.recSize) (by omega) (by omega)

/-- `LoadIndexFromDataFile` (mkv.go lines 183-205). -/
def LoadIndexFromDataFile (index : Index) (id : Nat) (content : List Nat) :
    Option Index :=
  loadScan index id content 0

/-- `LoadIndexFromDataFiles` (mkv.go lines 157-181): scan every data
file, in the given (ascending id) order, into the same index; a read
panic in any file crashes the rebuild (`none`). -/
def LoadIndexFromDataFiles (index : Index) (files : List (Nat × List Nat)) :
    Option Index :=
  match files with
  | [] => some index
  | (id, content) :: rest =>
    match loadScan index id content 0 with
    | none => none
    | some index2 => LoadIndexFromDataFiles index2 rest

/-! ### Index file persistence (`index.go`) -/

/-- The byte sequence `SaveIndex` writes: for each pair, a u16 BE key
length, the key, and the 24-byte entry. -/
def serializeIndex (index : Index) : List Nat :=
  match index with
  | [] => []
  | (key, e) :: rest =>
    (u16be (key.length % 65536) ++ (key ++ EncodeEntry e)) ++ serializeIndex rest

/-- `SaveIndex` opens the `index` file with `O_RDWR|O_CREATE` — without
`O_TRUNC` — and writes the serialized index from position 0, so any
prior file content longer than the new serialization survives as a
trailing suffix. -/
def SaveIndex (index : Index) (prior : List Nat) : List Nat :=
  serializeIndex index ++ prior.drop (serializeIndex index).length

/-- Result of one `ReadIndex` call: a parsed entry and the remaining
bytes, a clean `io.EOF` (ends `LoadIndex` successfully), or a partial
read (`io.ErrUnexpectedEOF`, an error). -/
inductive ReadIndexResult
  | found (key : List Nat) (e : Entry) (rest : List Nat)
  | atEnd
  | shortRead
deriving Repr, DecidableEq

/-- `ReadIndex`: `io.ReadFull` of the 2-byte size, the key, and the
24-byte entry.  `io.ReadFull` reports `io.EOF` when no byte at all is
available and `io.ErrUnexpectedEOF` on a partial read. -/
def ReadIndex (bytes : List Nat) : ReadIndexResult :=
  if bytes.length = 0 then .atEnd
  else if bytes.length < 2 then .shortRead
  else
    let ksize := be16 bytes
    let rest1 := bytes.drop 2
    if ksize ≠ 0 ∧ rest1.length = 0 then .atEnd
    else if rest1.length < ksize then .shortRead
    else
      let key := rest1.take ksize
      let rest2 := rest1.drop ksize
      if rest2.length = 0 then .atEnd
      else if rest2.length < 24 then .shortRead
      else .found key (DecodeEntry rest2) (rest2.drop 24)

theorem ReadIndex_found_shrinks {bytes key rest : List Nat} {e : Entry}
    (h : ReadIndex bytes = .found key e rest) : rest.length < bytes.length := by
  simp only [ReadIndex] at h
  split at h
  · exact absurd h (by simp)
  · split at h
    · exact absurd h (by simp)
    · split at h
      · exact absurd h (by simp)
      · split at h
        · exact absurd h (by simp)
        · split at h
          · exact absurd h (by simp)
          · split at h
            · exact absurd h (by simp)
            · rename_i h0 h2 hk hs hz h24
              rw [ReadIndexResult.found.injEq] at h
              obtain ⟨-, -, hrest⟩ := h
              subst hrest
              simp only [List.length_drop] at *
              omega

/-- Fuel-indexed version of the `LoadIndex` loop; any fuel above
`bytes.length` computes the loop exactly — see `LoadIndex_eq`. -/
def LoadIndexAux : Nat → Index → List Nat → Option Index
  | 0, _, _ => none
  | fuel + 1, index, bytes =>
    match ReadIndex bytes with
    | .atEnd => some index
    | .shortRead => none
    | .found key e rest => LoadIndexAux fuel (iupsert index key e) rest

/-- `LoadIndex` (reading the whole `index` file): loop `ReadIndex`,
stopping at `io.EOF`; any other error aborts the load (`none`). -/
def LoadIndex (index : Index) (bytes : List Nat) : Option Index :=
  LoadIndexAux (bytes.length + 1) index bytes

theorem LoadIndexAux_congr :
    ∀ f1 f2 (index : Index) (bytes : List Nat),
      bytes.length < f1 → bytes.length < f2 →
      LoadIndexAux f1 index bytes = LoadIndexAux f2 index bytes := by
  intro f1
  induction f1 with
  | zero => intro f2 index bytes h1 h2; omega
  | succ f1 ih =>
    intro f2 index bytes h1 h2
    cases f2 with
    | zero => omega
    | succ f2 =>
      simp only [LoadIndexAux]
      cases hr : ReadIndex bytes with
      | atEnd => rfl
      | shortRead => rfl
      | found key e rest =>
        have hb := ReadIndex_found_shrinks hr
        exact ih f2 _ rest (by omega) (by omega)

/-- The Go loop equation of `LoadIndex` (index.go lines 61-70). -/
theorem LoadIndex_eq (index : Index) (bytes : List Nat) :
    LoadIndex index bytes =
      match ReadIndex bytes with
      | .atEnd => some index
      | .shortRead => none
      | .found key e rest => LoadIndex (iupsert index key e) rest := by
  unfold LoadIndex
  simp only [LoadIndexAux]
  cases hr : ReadIndex bytes with
  | atEnd => rfl
  | shortRead => rfl
  | found key e rest =>
    have hb := ReadIndex_found_shrinks hr
    exact LoadIndexAux_congr bytes.length (rest.length + 1) _ rest (by omega) (by omega)

/-! ### Meta (`storage/engine/meta.go`) -/

/-- `Meta`: `index_up_to_date` and the `int64` counter `reusable_space`. -/
structure Meta where
  indexUpToDate : Bool
  reusableSpace : Int
deriving Repr, DecidableEq

/-- The `uint64` value of a `Nat`, reinterpreted as Go `int64`. -/
def int64OfUInt64 (u : Nat) : Int :=
  if u % 18446744073709551616 < 9223372036854775808 then
    ((u % 18446744073709551616 : Nat) : Int)
  else ((u % 18446744073709551616 : Nat) : Int) - 18446744073709551616

/-- Wrapping `int64` addition result. -/
def wrap64 (x : Int) : Int :=
  (x + 9223372036854775808) % 18446744073709551616 - 9223372036854775808

theorem wrap64_eq_self {x : Int} (h1 : -9223372036854775808 ≤ x)
    (h2 : x < 9223372036854775808) : wrap64 x = x := by
  unfold wrap64
  rw [Int.emod_eq_of_lt (by omega) (by omega)]
  omega

/-! ### The engine (`storage/engine/mkv.go`) -/

/-- The configuration fields the modelled operations consult.
`DataFileMaxSize` defaults to `2 ^ 32`; `SyncWrite` only adds an fsync,
which has no effect on the byte-level state. -/
structure Config where
  dataFileMaxSize : Nat
  syncWrite : Bool
deriving Repr, DecidableEq

/-- `DefaultConfig`. -/
def DefaultConfig : Config := { dataFileMaxSize := 4294967296, syncWrite := false }

/-- The mutable engine state guarded by the `MKV` mutex: active file,
sealed files keyed by id, in-memory index, and meta counters. -/
structure MKV where
  config : Config
  meta : Meta
  cur : DFile
  dataFiles : List (Nat × DFile)
  index : Index
  isMerging : Bool
deriving Repr, DecidableEq

/-- Sealed-file map lookup `m.dataFiles[id]`. -/
def dfLookup (files : List (Nat × DFile)) (id : Nat) : Option DFile :=
  match files with
  | [] => none
  | (i, df) :: rest => if i = id then some df else dfLookup rest id

/-- Sealed-file map insert `m.dataFiles[id] = df`. -/
def dfInsert (files : List (Nat × DFile)) (id : Nat) (df : DFile) :
    List (Nat × DFile) :=
  match files with
  | [] => [(id, df)]
  | (i, d0) :: rest =>
    if i = id then (id, df) :: rest else (i, d0) :: dfInsert rest id df

/-- `mayCreateNewDataFile`: when the active file reached
`DataFileMaxSize`, close it, reopen it read-only into the sealed map,
write a hint file (errors ignored; hint files are not part of the
modelled state), and open a fresh active file with the next id. -/
def mayCreateNewDataFile (m : MKV) : MKV :=
  if m.cur.content.length < m.config.dataFileMaxSize then m
  else
    { m with
      dataFiles := dfInsert m.dataFiles m.cur.id
        { id := m.cur.id, content := m.cur.content, readOnly := true }
      cur := { id := m.cur.id + 1, content := [], readOnly := false } }

/-- `MKV.Put` (mkv.go lines 315-342): rollover if needed, encode and
append a normal record, account the superseded entry in
`reusable_space`, upsert the index.  `none` models any Go error or
panic, in which case the index and meta are not modified. -/
def Put (m : MKV) (key value : List Nat) : Option MKV :=
  let m1 := mayCreateNewDataFile m
  let record := NewRecordWithoutChecksum 0 key value
  match AppendRecord m1.cur record with
  | none => none
  | some (cur2, offset, size) =>
    let entry : Entry := { id := cur2.id, offset := offset, size := size }
    let meta2 :=
      match ilookup m1.index key with
      | some old =>
        { m1.meta with
          reusableSpace := wrap64 (m1.meta.reusableSpace + int64OfUInt64 old.size) }
      | none => m1.meta
    some { m1 with cur := cur2, meta := meta2, index := iupsert m1.index key entry }

/-- The outcome of `MKV.Get`: the value bytes, the `ErrKeyNotFound`
sentinel, or any other failure (read error or panic). -/
inductive GetResult
  | found (value : List Nat)
  | keyNotFound
  | failed
deriving Repr, DecidableEq

/-- File resolution inside `MKV.Get`: the active file when the entry id
matches, otherwise the sealed map (a missing id leaves a nil pointer in
Go). -/
def resolveFile (m : MKV) (id : Nat) : Option DFile :=
  if id = m.cur.id then some m.cur else dfLookup m.dataFiles id

/-- `MKV.Get` (mkv.go lines 372-393): index lookup, file resolution, one
`ReadEntireRecordAt`, return the record value. -/
def Get (m : MKV) (key : List Nat) : GetResult :=
  match ilookup m.index key with
  | none => .keyNotFound
  | some entry =>
    match resolveFile m entry.id with
    | none => .failed
    | some df =>
      match ReadEntireRecordAt df.content entry.offset entry.size with
      | none => .failed
      | some record => .found record.recValue

/-- `MKV.Delete` (mkv.go lines 395-412): rollover if needed, append a
tombstone (normal flag, empty value, deleted bit set), account the old
entry in `reusable_space`, remove the key from the index. -/
def Delete (m : MKV) (key : List Nat) : Option MKV :=
  let m1 := mayCreateNewDataFile m
  let record := (NewRecordWithoutChecksum 0 key []).SetDeleted
  match AppendRecord m1.cur record with
  | none => none
  | some (cur2, _, _) =>
    let meta2 :=
      match ilookup m1.index key with
      | some old =>
        { m1.meta with
          reusableSpace := wrap64 (m1.meta.reusableSpace + int64OfUInt64 old.size) }
      | none => m1.meta
    some { m1 with cur := cur2, meta := meta2, index := iremove m1.index key }

/-- The state-mutating tail of a successful `MKV.Merge` (mkv.go lines
516-549): after the temp engine is closed and its files are moved in,
set `reusable_space` to 0 and `index_up_to_date` to true, then `reload`
replaces the active file, the sealed map and the index from disk without
touching `meta`.  The reload results are parameters because they come
from the file system. -/
def mergeFinalize (m : MKV) (cur : DFile) (dataFiles : List (Nat × DFile))
    (index : Index) : MKV :=
  { m with
    meta := { indexUpToDate := true, reusableSpace := 0 }
    cur := cur
    dataFiles := dataFiles
    index := index }

/-- `MKV.close` (mkv.go lines 616-630): write the index into the
existing `index` file (`SaveIndex`, no truncation), flip
`index_up_to_date` to true and persist meta, close all files.  Returns
the closed state together with the new `index` file bytes. -/
def engineClose (m : MKV) (priorIndexFile : List Nat) : MKV × List Nat :=
  ({ m with meta := { m.meta with indexUpToDate := true } },
    SaveIndex m.index priorIndexFile)

/-- The fresh engine state `Open` builds for an empty directory: default
meta, an empty active file with id 0, no sealed files, empty index. -/
def mkvInit (config : Config) : MKV :=
  { config := config
    meta := { indexUpToDate := false, reusableSpace := 0 }
    cur := { id := 0, content := [], readOnly := false }
    dataFiles := []
    index := []
    isMerging := false }

/-! ### `Open` (mkv.go lines 41-122) over an abstract directory -/

/-- The directory contents `Open` consumes: the parsed `meta.json` (or
absent), the `*.data` files already sorted ascending by id (the Go code
sorts the zero-padded names), and the `index` file (or absent). -/
structure Disk where
  meta : Option Meta
  dataFiles : List (Nat × List Nat)
  indexFile : Option (List Nat)
deriving Repr, DecidableEq

/-- `Open`, with directory creation and locking abstracted away: load
meta (zero-value `Meta` if absent), load the data files (a fresh empty
file when there are none), recover the last one (a read panic crashes
`Open`), drop the `index` file if recovery truncated, then load the
persisted index when `meta.index_up_to_date` and the file exists, and
otherwise rebuild from all data files.  The loaded `meta` is carried
into the engine state unchanged — no step sets `index_up_to_date` to
false. -/
def OpenM (config : Config) (disk : Disk) : Option MKV :=
  let meta := disk.meta.getD { indexUpToDate := false, reusableSpace := 0 }
  match disk.dataFiles.getLast? with
  | none => some { mkvInit config with meta := meta }
  | some (lastId, lastContent) =>
    match RecoverDataFile lastContent with
    | none => none
    | some recovery =>
      let curContent := recovery.2
      let indexFile := if recovery.1 then none else disk.indexFile
      let sealed := (disk.dataFiles.dropLast).map
        (fun p => (p.1, ({ id := p.1, content := p.2, readOnly := true } : DFile)))
      let allFiles := disk.dataFiles.dropLast ++ [(lastId, curContent)]
      let index? :=
        match indexFile with
        | some bytes => if meta.indexUpToDate then LoadIndex [] bytes
                        else LoadIndexFromDataFiles [] allFiles
        | none => LoadIndexFromDataFiles [] allFiles
      match index? with
      | none => none
      | some index =>
        some { config := config
               meta := meta
               cur := { id := lastId, content := curContent, readOnly := false }
               dataFiles := sealed
               index := index
               isMerging := false }

/-! ### Well-formedness of engine states and preservation lemmas -/

theorem dfLookup_dfInsert_self (files : List (Nat × DFile)) (id : Nat) (df : DFile) :
    dfLookup (dfInsert files id df) id = some df := by
  induction files with
  | nil => simp [dfInsert, dfLookup]
  | cons p rest ih =>
    obtain ⟨i, d0⟩ := p
    by_cases h : i = id
    · simp [dfInsert, dfLookup, h]
    · simp [dfInsert, dfLookup, h, ih]

theorem dfLookup_dfInsert_other (files : List (Nat × DFile)) {id id2 : Nat} (df : DFile)
    (h : id2 ≠ id) : dfLookup (dfInsert files id2 df) id = dfLookup files id := by
  induction files with
  | nil => simp [dfInsert, dfLookup, h]
  | cons p rest ih =>
    obtain ⟨i, d0⟩ := p
    by_cases hk : i = id2
    · subst hk
      simp [dfInsert, dfLookup, h, ih]
    · simp [dfInsert, hk, dfLookup, ih]

theorem mem_dfInsert {files : List (Nat × DFile)} {id : Nat} {df : DFile}
    {p : Nat × DFile} (h : p ∈ dfInsert files id df) : p ∈ files ∨ p = (id, df) := by
  induction files with
  | nil => simpa [dfInsert] using h
  | cons q rest ih =>
    obtain ⟨i, d0⟩ := q
    by_cases hk : i = id
    · subst hk
      rw [show dfInsert ((i, d0) :: rest) i df = (i, df) :: rest by
        simp [dfInsert]] at h
      rcases List.mem_cons.mp h with h | h
      · exact Or.inr h
      · exact Or.inl (List.mem_cons_of_mem _ h)
    · rw [show dfInsert ((i, d0) :: rest) id df = (i, d0) :: dfInsert rest id df by
        simp [dfInsert, hk]] at h
      rcases List.mem_cons.mp h with h | h
      · exact Or.inl (by simp [h])
      · rcases ih h with h2 | h2
        · exact Or.inl (List.mem_cons_of_mem _ h2)
        · exact Or.inr h2

theorem mem_iupsert {index : Index} {key : List Nat} {e : Entry}
    {q : List Nat × Entry} (h : q ∈ iupsert index key e) : q ∈ index ∨ q = (key, e) := by
  induction index with
  | nil => simpa [iupsert] using h
  | cons p rest ih =>
    obtain ⟨k, e0⟩ := p
    by_cases hk : k = key
    · subst hk
      rw [show iupsert ((k, e0) :: rest) k e = (k, e) :: rest by simp [iupsert]] at h
      rcases List.mem_cons.mp h with h | h
      · exact Or.inr h
      · exact Or.inl (List.mem_cons_of_mem _ h)
    · rw [show iupsert ((k, e0) :: rest) key e = (k, e0) :: iupsert rest key e by
        simp [iupsert, hk]] at h
      rcases List.mem_cons.mp h with h | h
      · exact Or.inl (by simp [h])
      · rcases ih h with h2 | h2
        · exact Or.inl (List.mem_cons_of_mem _ h2)
        · exact Or.inr h2

theorem mem_iremove {index : Index} {key : List Nat} {q : List Nat × Entry}
    (h : q ∈ iremove index key) : q ∈ index := by
  induction index with
  | nil => simpa [iremove] using h
  | cons p rest ih =>
    obtain ⟨k, e0⟩ := p
    by_cases hk : k = key
    · rw [show iremove ((k, e0) :: rest) key = iremove rest key by
        simp [iremove, hk]] at h
      exact List.mem_cons_of_mem _ (ih h)
    · rw [show iremove ((k, e0) :: rest) key = (k, e0) :: iremove rest key by
        simp [iremove, hk]] at h
      rcases List.mem_cons.mp h with h | h
      · exact List.mem_cons.mpr (Or.inl h)
      · exact List.mem_cons_of_mem _ (ih h)

theorem ilookup_mem {index : Index} {key : List Nat} {e : Entry}
    (h : ilookup index key = some e) : (key, e) ∈ index := by
  induction index with
  | nil => simp [ilookup] at h
  | cons p rest ih =>
    obtain ⟨k, e0⟩ := p
    by_cases hk : k = key
    · subst hk
      rw [show ilookup ((k, e0) :: rest) k = some e0 by simp [ilookup],
        Option.some_inj] at h
      subst h
      exact List.mem_cons_self _ _
    · rw [show ilookup ((k, e0) :: rest) key = ilookup rest key by
        simp [ilookup, hk]] at h
      exact List.mem_cons_of_mem _ (ih h)

/-- The invariants of engine states that the operations maintain: the
active file is writable, all sealed ids are below the active id, and no
index entry points above the active id. -/
structure WF (m : MKV) : Prop where
  curW : m.cur.readOnly = false
  filesLt : ∀ p ∈ m.dataFiles, p.1 < m.cur.id
  indexLe : ∀ q ∈ m.index, q.2.id ≤ m.cur.id

theorem wf_mkvInit (config : Config) : WF (mkvInit config) := by
  constructor <;> simp [mkvInit]

theorem wf_roll {m : MKV} (h : WF m) : WF (mayCreateNewDataFile m) := by
  unfold mayCreateNewDataFile
  split
  · exact h
  · constructor
    · rfl
    · intro p hp
      rcases mem_dfInsert hp with h2 | h2
      · have := h.filesLt p h2
        simp only []
        omega
      · subst h2
        simp
    · intro q hq
      have := h.indexLe q hq
      simp only []
      omega

theorem roll_parts (m : MKV) :
    (mayCreateNewDataFile m).index = m.index ∧
    (mayCreateNewDataFile m).meta = m.meta ∧
    (mayCreateNewDataFile m).config = m.config := by
  unfold mayCreateNewDataFile
  split <;> simp

/-- Reading a full record below the old end is unaffected by appending. -/
theorem ReadEntireRecordAt_extend (c b : List Nat) (offset size : Nat)
    (h : offset + size ≤ c.length) :
    ReadEntireRecordAt (c ++ b) offset size = ReadEntireRecordAt c offset size := by
  unfold ReadEntireRecordAt
  rw [if_neg (by rw [List.length_append]; omega), if_neg (by omega),
    List.drop_append_of_le_length (by omega),
    List.take_append_of_le_length (by rw [List.length_drop]; omega)]

theorem ReadEntireRecordAt_some_le {c : List Nat} {offset size : Nat} {r : Record}
    (h : ReadEntireRecordAt c offset size = some r) : offset + size ≤ c.length := by
  unfold ReadEntireRecordAt at h
  split at h
  · exact absurd h (by simp)
  · omega

theorem Get_some (m : MKV) (key : List Nat) (e : Entry)
    (hl : ilookup m.index key = some e) :
    Get m key =
      match resolveFile m e.id with
      | none => .failed
      | some df =>
        match ReadEntireRecordAt df.content e.offset e.size with
        | none => .failed
        | some record => .found record.recValue := by
  unfold Get
  rw [hl]

/-- Rollover does not change the outcome of `Get` on well-formed states:
the sealed copy of the active file has the same content, and older
sealed files are untouched. -/
theorem Get_roll {m : MKV} (key : List Nat) (h : WF m) :
    Get (mayCreateNewDataFile m) key = Get m key := by
  by_cases hroll : m.cur.content.length < m.config.dataFileMaxSize
  · rw [show mayCreateNewDataFile m = m from by simp [mayCreateNewDataFile, hroll]]
  · have hl2 : ilookup (mayCreateNewDataFile m).index key = ilookup m.index key := by
      rw [(roll_parts m).1]
    cases hl : ilookup m.index key with
    | none =>
      unfold Get
      rw [hl2, hl]
    | some e =>
      rw [Get_some _ key e (by rw [hl2, hl]), Get_some _ key e hl]
      have hle : e.id ≤ m.cur.id := h.indexLe _ (ilookup_mem hl)
      by_cases hid : e.id = m.cur.id
      · have h1 : resolveFile (mayCreateNewDataFile m) e.id =
            some { id := m.cur.id, content := m.cur.content, readOnly := true } := by
          unfold resolveFile
          simp only [mayCreateNewDataFile, hroll, if_false]
          rw [if_neg (show ¬(e.id = m.cur.id + 1) by omega), hid,
            dfLookup_dfInsert_self]
        have h2 : resolveFile m e.id = some m.cur := by
          unfold resolveFile
          rw [if_pos hid]
        rw [h1, h2]
      · have h1 : resolveFile (mayCreateNewDataFile m) e.id =
            dfLookup m.dataFiles e.id := by
          unfold resolveFile
          simp only [mayCreateNewDataFile, hroll, if_false]
          rw [if_neg (show ¬(e.id = m.cur.id + 1) by omega),
            dfLookup_dfInsert_other _ _ (by omega)]
        have h2 : resolveFile m e.id = dfLookup m.dataFiles e.id := by
          unfold resolveFile
          rw [if_neg hid]
        rw [h1, h2]

theorem AppendRecord_inv {df : DFile} {r : Record} {t : DFile × Nat × Nat}
    (h : AppendRecord df r = some t) :
    ∃ bytes, EncodeRecordWithChecksum r = some bytes ∧
      t = ({ df with content := df.content ++ bytes }, df.content.length, bytes.length) ∧
      df.readOnly = false := by
  unfold AppendRecord at h
  split at h
  · exact absurd h (by simp)
  · rename_i hro
    cases he : EncodeRecordWithChecksum r with
    | none => rw [he] at h; exact absurd h (by simp)
    | some bytes =>
      rw [he] at h
      exact ⟨bytes, rfl, (Option.some_inj.mp h).symm, by simpa using hro⟩

/-- Inverting a successful encode of a constructor-built record: the
offset-wrap guards passed, which pins down the conditions of
`EncodeRecordWithChecksum_eq`, and the produced bytes are `encBytes`. -/
theorem encode_new_inv {flag : Nat} {key value bytes : List Nat}
    (h : EncodeRecordWithChecksum (NewRecordWithoutChecksum flag key value) = some bytes) :
    key.length % 65536 ≤ 65528 ∧
    7 + key.length % 65536 + value.length % 4294967296 + 4 < 4294967296 ∧
    bytes = encBytes flag key value := by
  have hks : key.length % 65536 < 65536 := Nat.mod_lt _ (by norm_num)
  have hvs : value.length % 4294967296 < 4294967296 := Nat.mod_lt _ (by norm_num)
  obtain ⟨hA, hB⟩ : key.length % 65536 ≤ 65528 ∧
      7 + key.length % 65536 + value.length % 4294967296 + 4 < 4294967296 := by
    have h3 := h
    simp only [EncodeRecordWithChecksum, NewRecordWithoutChecksum] at h3
    split at h3
    · exact absurd h3 (by simp)
    · split at h3
      · exact absurd h3 (by simp)
      · split at h3
        · exact absurd h3 (by simp)
        · split at h3
          · exact absurd h3 (by simp)
          · split at h3
            · exact absurd h3 (by simp)
            · split at h3
              · exact absurd h3 (by simp)
              · rename_i c1 c2 c3 c4 c5 c6
                constructor <;> omega
  refine ⟨hA, hB, ?_⟩
  rw [EncodeRecordWithChecksum_eq flag key value hA hB] at h
  exact (Option.some_inj.mp h).symm

/-- When the reduced key size lies in `[65529, 65535]`, the `uint16`
offset `keyBegin + ksize` wraps below `keyBegin` and the key-copy slice
panics: encoding yields no buffer. -/
theorem encode_wrap_none (flag : Nat) (key value : List Nat)
    (h : 65529 ≤ key.length % 65536) :
    EncodeRecordWithChecksum (NewRecordWithoutChecksum flag key value) = none := by
  have hlt : key.length % 65536 < 65536 := Nat.mod_lt _ (by norm_num)
  simp only [EncodeRecordWithChecksum, NewRecordWithoutChecksum]
  rw [if_pos (show (7 + key.length % 65536) % 65536 < 7 by omega)]

/-- Unfolding a successful `Put`: the state after rollover gets the
encoded record appended to its active file, the superseded entry
accounted, and the key upserted. -/
theorem Put_inv {m m' : MKV} {key value : List Nat}
    (h : Put m key value = some m') :
    ∃ bytes,
      EncodeRecordWithChecksum (NewRecordWithoutChecksum 0 key value) = some bytes ∧
      (mayCreateNewDataFile m).cur.readOnly = false ∧
      m' = { mayCreateNewDataFile m with
             cur := { (mayCreateNewDataFile m).cur with
                      content := (mayCreateNewDataFile m).cur.content ++ bytes }
             meta := (match ilookup (mayCreateNewDataFile m).index key with
               | some old =>
                 { (mayCreateNewDataFile m).meta with
                   reusableSpace := wrap64 ((mayCreateNewDataFile m).meta.reusableSpace +
                     int64OfUInt64 old.size) }
               | none => (mayCreateNewDataFile m).meta)
             index := iupsert (mayCreateNewDataFile m).index key
               { id := (mayCreateNewDataFile m).cur.id
                 offset := (mayCreateNewDataFile m).cur.content.length
                 size := bytes.length } } := by
  simp only [Put] at h
  cases ha : AppendRecord (mayCreateNewDataFile m).cur (NewRecordWithoutChecksum 0 key value) with
  | none => rw [ha] at h; exact absurd h (by simp)
  | some t =>
    rw [ha] at h
    obtain ⟨bytes, henc, ht, hro⟩ := AppendRecord_inv ha
    subst ht
    exact ⟨bytes, henc, hro, (Option.some_inj.mp h).symm⟩

/-- Unfolding a successful `Delete`. -/
theorem Delete_inv {m m' : MKV} {key : List Nat}
    (h : Delete m key = some m') :
    ∃ bytes,
      EncodeRecordWithChecksum ((NewRecordWithoutChecksum 0 key []).SetDeleted) =
        some bytes ∧
      (mayCreateNewDataFile m).cur.readOnly = false ∧
      m' = { mayCreateNewDataFile m with
             cur := { (mayCreateNewDataFile m).cur with
                      content := (mayCreateNewDataFile m).cur.content ++ bytes }
             meta := (match ilookup (mayCreateNewDataFile m).index key with
               | some old =>
                 { (mayCreateNewDataFile m).meta with
                   reusableSpace := wrap64 ((mayCreateNewDataFile m).meta.reusableSpace +
                     int64OfUInt64 old.size) }
               | none => (mayCreateNewDataFile m).meta)
             index := iremove (mayCreateNewDataFile m).index key } := by
  simp only [Delete] at h
  cases ha : AppendRecord (mayCreateNewDataFile m).cur
      ((NewRecordWithoutChecksum 0 key []).SetDeleted) with
  | none => rw [ha] at h; exact absurd h (by simp)
  | some t =>
    rw [ha] at h
    obtain ⟨bytes, henc, ht, hro⟩ := AppendRecord_inv ha
    subst ht
    exact ⟨bytes, henc, hro, (Option.some_inj.mp h).symm⟩

theorem wf_put {m m' : MKV} {key value : List Nat} (hw : WF m)
    (h : Put m key value = some m') : WF m' := by
  obtain ⟨bytes, henc, hro, hm⟩ := Put_inv h
  subst hm
  have h1 := wf_roll hw
  constructor
  · exact h1.curW
  · exact fun p hp => h1.filesLt p hp
  · intro q hq
    rcases mem_iupsert hq with h2 | h2
    · exact h1.indexLe q h2
    · subst h2
      exact Nat.le_refl _

theorem wf_delete {m m' : MKV} {key : List Nat} (hw : WF m)
    (h : Delete m key = some m') : WF m' := by
  obtain ⟨bytes, henc, hro, hm⟩ := Delete_inv h
  subst hm
  have h1 := wf_roll hw
  constructor
  · exact h1.curW
  · exact fun p hp => h1.filesLt p hp
  · exact fun q hq => h1.indexLe q (mem_iremove hq)

/-- Reading exactly the appended suffix. -/
theorem ReadEntireRecordAt_append (c b : List Nat) :
    ReadEntireRecordAt (c ++ b) c.length b.length = DecodeRecord b := by
  unfold ReadEntireRecordAt
  rw [if_neg (by rw [List.length_append]; omega), List.drop_left, List.take_length]

/-- A `Get` that currently returns a value keeps returning it after a
`Put` on a different key. -/
theorem Get_put_other {m m' : MKV} {key key2 value2 v : List Nat} (hw : WF m)
    (hne : key2 ≠ key) (h : Put m key2 value2 = some m')
    (hget : Get m key = .found v) : Get m' key = .found v := by
  obtain ⟨bytes, henc, hro, hm⟩ := Put_inv h
  have hget1 : Get (mayCreateNewDataFile m) key = .found v := by
    rw [Get_roll key hw]; exact hget
  set m1 := mayCreateNewDataFile m with hm1
  cases hl : ilookup m1.index key with
  | none =>
    rw [show Get m1 key = .keyNotFound from by unfold Get; rw [hl]] at hget1
    exact absurd hget1 (by simp)
  | some e =>
    have hle : e.id ≤ m1.cur.id := (wf_roll hw).indexLe _ (ilookup_mem hl)
    have hl2 : ilookup m'.index key = some e := by
      rw [hm]
      show ilookup (iupsert m1.index key2 _) key = some e
      rw [ilookup_iupsert_other _ _ hne, hl]
    rw [Get_some _ key e hl2, Get_some _ key e hl] at *
    by_cases hid : e.id = m1.cur.id
    · have r2 : resolveFile m1 e.id = some m1.cur := by
        unfold resolveFile; rw [if_pos hid]
      have r1 : resolveFile m' e.id =
          some { m1.cur with content := m1.cur.content ++ bytes } := by
        rw [hm]
        unfold resolveFile
        rw [if_pos (show e.id = _ from hid)]
      rw [r2] at hget1
      rw [r1]
      have hget2 : (match ReadEntireRecordAt m1.cur.content e.offset e.size with
          | none => GetResult.failed
          | some record => GetResult.found record.recValue) = GetResult.found v := hget1
      cases hr : ReadEntireRecordAt m1.cur.content e.offset e.size with
      | none => rw [hr] at hget2; exact absurd hget2 (by simp)
      | some record =>
        rw [hr] at hget2
        have hb := ReadEntireRecordAt_some_le hr
        show (match ReadEntireRecordAt (m1.cur.content ++ bytes) e.offset e.size with
          | none => GetResult.failed
          | some record => GetResult.found record.recValue) = .found v
        rw [ReadEntireRecordAt_extend _ _ _ _ hb, hr]
        exact hget2
    · have r2 : resolveFile m1 e.id = dfLookup m1.dataFiles e.id := by
        unfold resolveFile; rw [if_neg hid]
      have r1 : resolveFile m' e.id = dfLookup m1.dataFiles e.id := by
        rw [hm]
        unfold resolveFile
        rw [if_neg (show ¬(e.id = _) from hid)]
      rw [r2] at hget1
      rw [r1]
      exact hget1

/-- A `Get` that currently returns a value keeps returning it after a
`Delete` on a different key. -/
theorem Get_delete_other {m m' : MKV} {key key2 v : List Nat} (hw : WF m)
    (hne : key2 ≠ key) (h : Delete m key2 = some m')
    (hget : Get m key = .found v) : Get m' key = .found v := by
  obtain ⟨bytes, henc, hro, hm⟩ := Delete_inv h
  have hget1 : Get (mayCreateNewDataFile m) key = .found v := by
    rw [Get_roll key hw]; exact hget
  set m1 := mayCreateNewDataFile m with hm1
  cases hl : ilookup m1.index key with
  | none =>
    rw [show Get m1 key = .keyNotFound from by unfold Get; rw [hl]] at hget1
    exact absurd hget1 (by simp)
  | some e =>
    have hle : e.id ≤ m1.cur.id := (wf_roll hw).indexLe _ (ilookup_mem hl)
    have hl2 : ilookup m'.index key = some e := by
      rw [hm]
      show ilookup (iremove m1.index key2) key = some e
      rw [ilookup_iremove_other _ hne, hl]
    rw [Get_some _ key e hl2, Get_some _ key e hl] at *
    by_cases hid : e.id = m1.cur.id
    · have r2 : resolveFile m1 e.id = some m1.cur := by
        unfold resolveFile; rw [if_pos hid]
      have r1 : resolveFile m' e.id =
          some { m1.cur with content := m1.cur.content ++ bytes } := by
        rw [hm]
        unfold resolveFile
        rw [if_pos (show e.id = _ from hid)]
      rw [r2] at hget1
      rw [r1]
      have hget2 : (match ReadEntireRecordAt m1.cur.content e.offset e.size with
          | none => GetResult.failed
          | some record => GetResult.found record.recValue) = GetResult.found v := hget1
      cases hr : ReadEntireRecordAt m1.cur.content e.offset e.size with
      | none => rw [hr] at hget2; exact absurd hget2 (by simp)
      | some record =>
        rw [hr] at hget2
        have hb := ReadEntireRecordAt_some_le hr
        show (match ReadEntireRecordAt (m1.cur.content ++ bytes) e.offset e.size with
          | none => GetResult.failed
          | some record => GetResult.found record.recValue) = .found v
        rw [ReadEntireRecordAt_extend _ _ _ _ hb, hr]
        exact hget2
    · have r2 : resolveFile m1 e.id = dfLookup m1.dataFiles e.id := by
        unfold resolveFile; rw [if_neg hid]
      have r1 : resolveFile m' e.id = dfLookup m1.dataFiles e.id := by
        rw [hm]
        unfold resolveFile
        rw [if_neg (show ¬(e.id = _) from hid)]
      rw [r2] at hget1
      rw [r1]
      exact hget1

/-- A successful `Put` makes `Get` return the stored value — the whole
value, provided it is shorter than `2 ^ 32` so that the `vsize` header
field is exact. -/
theorem Get_put_self {m m' : MKV} {key value : List Nat}
    (h : Put m key value = some m') (hv : value.length < 4294967296) :
    Get m' key = .found value := by
  obtain ⟨bytes, henc, hro, hm⟩ := Put_inv h
  obtain ⟨hks, hcs, hbytes⟩ := encode_new_inv henc
  subst hbytes
  set m1 := mayCreateNewDataFile m with hm1
  have hl : ilookup m'.index key =
      some { id := m1.cur.id, offset := m1.cur.content.length,
             size := (encBytes 0 key value).length } := by
    rw [hm]
    exact ilookup_iupsert_self _ _ _
  rw [Get_some _ key _ hl]
  have r1 : resolveFile m' m1.cur.id =
      some { m1.cur with content := m1.cur.content ++ encBytes 0 key value } := by
    rw [hm]
    unfold resolveFile
    rw [if_pos rfl]
  show (match resolveFile m' m1.cur.id with
    | none => GetResult.failed
    | some df =>
      match ReadEntireRecordAt df.content m1.cur.content.length
          (encBytes 0 key value).length with
      | none => GetResult.failed
      | some record => GetResult.found record.recValue) = .found value
  rw [r1]
  show (match ReadEntireRecordAt (m1.cur.content ++ encBytes 0 key value)
      m1.cur.content.length (encBytes 0 key value).length with
    | none => GetResult.failed
    | some record => GetResult.found record.recValue) = .found value
  rw [ReadEntireRecordAt_append, DecodeRecord_encBytes 0 key value hks hcs]
  show GetResult.found (decRec 0 key value).recValue = .found value
  unfold decRec Record.recValue
  rw [show value.length % 4294967296 = value.length from Nat.mod_eq_of_lt hv,
    List.take_length]

/-- After a successful `Delete`, the key is gone from the index, so
`Get` reports `ErrKeyNotFound`. -/
theorem Get_delete_self {m m' : MKV} {key : List Nat}
    (h : Delete m key = some m') : Get m' key = .keyNotFound := by
  obtain ⟨bytes, henc, hro, hm⟩ := Delete_inv h
  unfold Get
  rw [hm]
  show (match ilookup (iremove (mayCreateNewDataFile m).index key) key with
    | none => GetResult.keyNotFound
    | some entry => _) = _
  rw [ilookup_iremove_self]

/-! ### Reachable states and operation sequences -/

/-- Engine states reachable from a fresh empty directory by successful
operations.  `roll` is included separately because a failed `Put` or
`Delete` can still have rolled the active file over before failing. -/
inductive Reachable (config : Config) : MKV → Prop
  | init : Reachable config (mkvInit config)
  | roll {m : MKV} : Reachable config m → Reachable config (mayCreateNewDataFile m)
  | put {m m' : MKV} {k v : List Nat} :
      Reachable config m → Put m k v = some m' → Reachable config m'
  | del {m m' : MKV} {k : List Nat} :
      Reachable config m → Delete m k = some m' → Reachable config m'

theorem reachable_wf {config : Config} {m : MKV} (h : Reachable config m) : WF m := by
  induction h with
  | init => exact wf_mkvInit config
  | roll _ ih => exact wf_roll ih
  | put _ hput ih => exact wf_put ih hput
  | del _ hdel ih => exact wf_delete ih hdel

/-- Sequences of successful engine operations that never touch `key`
with a `Put`, nor with a `Delete`. -/
inductive OtherOps (key : List Nat) : MKV → MKV → Prop
  | refl (m : MKV) : OtherOps key m m
  | roll {m1 m2 : MKV} : OtherOps key m1 m2 → OtherOps key m1 (mayCreateNewDataFile m2)
  | put {m1 m2 m3 : MKV} {k v : List Nat} :
      OtherOps key m1 m2 → k ≠ key → Put m2 k v = some m3 → OtherOps key m1 m3
  | del {m1 m2 m3 : MKV} {k : List Nat} :
      OtherOps key m1 m2 → k ≠ key → Delete m2 k = some m3 → OtherOps key m1 m3

theorem Get_otherOps {key v : List Nat} {m1 m2 : MKV} (hw : WF m1)
    (hops : OtherOps key m1 m2) (hget : Get m1 key = .found v) :
    Get m2 key = .found v ∧ WF m2 := by
  induction hops with
  | refl => exact ⟨hget, hw⟩
  | roll _ ih => exact ⟨by rw [Get_roll key ih.2]; exact ih.1, wf_roll ih.2⟩
  | put _ hne hput ih => exact ⟨Get_put_other ih.2 hne hput ih.1, wf_put ih.2 hput⟩
  | del _ hne hdel ih => exact ⟨Get_delete_other ih.2 hne hdel ih.1, wf_delete ih.2 hdel⟩

/-- Sequences of successful engine operations containing no `Put` on
`key`; `Delete` on `key` itself is allowed. -/
inductive NoPutOps (key : List Nat) : MKV → MKV → Prop
  | refl (m : MKV) : NoPutOps key m m
  | roll {m1 m2 : MKV} : NoPutOps key m1 m2 → NoPutOps key m1 (mayCreateNewDataFile m2)
  | put {m1 m2 m3 : MKV} {k v : List Nat} :
      NoPutOps key m1 m2 → k ≠ key → Put m2 k v = some m3 → NoPutOps key m1 m3
  | del {m1 m2 m3 : MKV} {k : List Nat} :
      NoPutOps key m1 m2 → Delete m2 k = some m3 → NoPutOps key m1 m3

theorem absent_noPutOps {key : List Nat} {m1 m2 : MKV}
    (hops : NoPutOps key m1 m2) (habs : ilookup m1.index key = none) :
    ilookup m2.index key = none := by
  induction hops with
  | refl => exact habs
  | roll _ ih => rw [(roll_parts _).1]; exact ih
  | put _ hne hput ih =>
    obtain ⟨bytes, henc, hro, hm⟩ := Put_inv hput
    rw [hm]
    show ilookup (iupsert _ _ _) key = none
    rw [ilookup_iupsert_other _ _ hne, (roll_parts _).1]
    exact ih
  | del _ hdel ih =>
    rename_i m2x m3x k hops2
    obtain ⟨bytes, henc, hro, hm⟩ := Delete_inv hdel
    rw [hm]
    show ilookup (iremove _ k) key = none
    by_cases hk : k = key
    · subst hk
      exact ilookup_iremove_self _ _
    · rw [ilookup_iremove_other _ hk, (roll_parts _).1]
      exact ih

theorem Get_keyNotFound_of_absent {m : MKV} {key : List Nat}
    (h : ilookup m.index key = none) : Get m key = .keyNotFound := by
  unfold Get
  rw [h]

/-! ### The index-to-log consistency invariant (spec §3, claim C9) -/

/-- Resolve the file an entry points at and read its full record, as
`MKV.Get` does. -/
def readEntryRecord (m : MKV) (e : Entry) : Option Record :=
  match resolveFile m e.id with
  | none => none
  | some df => ReadEntireRecordAt df.content e.offset e.size

/-- The invariant claimed in spec §3: every index entry reads back a
record whose key is the indexed key and whose stored checksum matches
the recomputed one. -/
def Consistent (m : MKV) : Prop :=
  ∀ q ∈ m.index, ∃ r, readEntryRecord m q.2 = some r ∧
    r.key = q.1 ∧ r.Corrupted = false

theorem readEntryRecord_roll {m : MKV} (hw : WF m) (e : Entry)
    (hle : e.id ≤ m.cur.id) :
    readEntryRecord (mayCreateNewDataFile m) e = readEntryRecord m e := by
  by_cases hroll : m.cur.content.length < m.config.dataFileMaxSize
  · rw [show mayCreateNewDataFile m = m from by simp [mayCreateNewDataFile, hroll]]
  · unfold readEntryRecord
    by_cases hid : e.id = m.cur.id
    · have h1 : resolveFile (mayCreateNewDataFile m) e.id =
          some { id := m.cur.id, content := m.cur.content, readOnly := true } := by
        unfold resolveFile
        simp only [mayCreateNewDataFile, hroll, if_false]
        rw [if_neg (show ¬(e.id = m.cur.id + 1) by omega), hid,
          dfLookup_dfInsert_self]
      have h2 : resolveFile m e.id = some m.cur := by
        unfold resolveFile; rw [if_pos hid]
      rw [h1, h2]
    · have h1 : resolveFile (mayCreateNewDataFile m) e.id =
          dfLookup m.dataFiles e.id := by
        unfold resolveFile
        simp only [mayCreateNewDataFile, hroll, if_false]
        rw [if_neg (show ¬(e.id = m.cur.id + 1) by omega),
          dfLookup_dfInsert_other _ _ (by omega)]
      have h2 : resolveFile m e.id = dfLookup m.dataFiles e.id := by
        unfold resolveFile; rw [if_neg hid]
      rw [h1, h2]

/-- Appending to the active file (and replacing meta and index) does not
change a successful entry read. -/
theorem readEntryRecord_extendCur {m1 : MKV} (bytes : List Nat) (newMeta : Meta)
    (newIndex : Index) {e : Entry} {r : Record}
    (hr : readEntryRecord m1 e = some r) :
    readEntryRecord
      { m1 with
        cur := { m1.cur with content := m1.cur.content ++ bytes }
        meta := newMeta
        index := newIndex } e = some r := by
  unfold readEntryRecord at *
  by_cases hid : e.id = m1.cur.id
  · have h2 : resolveFile m1 e.id = some m1.cur := by
      unfold resolveFile; rw [if_pos hid]
    rw [h2] at hr
    have hr2 : ReadEntireRecordAt m1.cur.content e.offset e.size = some r := hr
    have h1 : resolveFile
        { m1 with
          cur := { m1.cur with content := m1.cur.content ++ bytes }
          meta := newMeta
          index := newIndex } e.id =
        some { m1.cur with content := m1.cur.content ++ bytes } := by
      unfold resolveFile
      rw [if_pos (show e.id = _ from hid)]
    rw [h1]
    show ReadEntireRecordAt (m1.cur.content ++ bytes) e.offset e.size = some r
    rw [ReadEntireRecordAt_extend _ _ _ _ (ReadEntireRecordAt_some_le hr2)]
    exact hr2
  · have h2 : resolveFile m1 e.id = dfLookup m1.dataFiles e.id := by
      unfold resolveFile; rw [if_neg hid]
    have h1 : resolveFile
        { m1 with
          cur := { m1.cur with content := m1.cur.content ++ bytes }
          meta := newMeta
          index := newIndex } e.id = dfLookup m1.dataFiles e.id := by
      unfold resolveFile
      rw [if_neg (show ¬(e.id = _) from hid)]
    rw [h1]
    rw [h2] at hr
    exact hr

/-- Reachability restricted to `Put` keys shorter than `65536` bytes —
the precondition under which the `uint16` key-size header is exact. -/
inductive ReachableB (config : Config) : MKV → Prop
  | init : ReachableB config (mkvInit config)
  | roll {m : MKV} : ReachableB config m → ReachableB config (mayCreateNewDataFile m)
  | put {m m' : MKV} {k v : List Nat} :
      ReachableB config m → k.length < 65536 → Put m k v = some m' →
      ReachableB config m'
  | del {m m' : MKV} {k : List Nat} :
      ReachableB config m → Delete m k = some m' → ReachableB config m'

theorem reachableB_wf {config : Config} {m : MKV} (h : ReachableB config m) : WF m := by
  induction h with
  | init => exact wf_mkvInit config
  | roll _ ih => exact wf_roll ih
  | put _ _ hput ih => exact wf_put ih hput
  | del _ hdel ih => exact wf_delete ih hdel

theorem consistent_of_reachableB {config : Config} {m : MKV}
    (h : ReachableB config m) : Consistent m := by
  induction h with
  | init => intro q hq; exact absurd hq (by simp [mkvInit])
  | roll hre ih =>
    rename_i m0
    intro q hq
    rw [(roll_parts m0).1] at hq
    obtain ⟨r, hr, hk, hc⟩ := ih q hq
    exact ⟨r, by
      rw [readEntryRecord_roll (reachableB_wf hre) _
        ((reachableB_wf hre).indexLe q hq)]
      exact hr, hk, hc⟩
  | put hre hklen hput ih =>
    rename_i m0 m0' k v
    obtain ⟨bytes, henc, hro, hm⟩ := Put_inv hput
    obtain ⟨hks, hcs, hbytes⟩ := encode_new_inv henc
    subst hbytes
    have hw0 := reachableB_wf hre
    have hw1 := wf_roll hw0
    intro q hq
    rw [hm] at hq
    have hq2 : q ∈ iupsert (mayCreateNewDataFile m0).index k
        { id := (mayCreateNewDataFile m0).cur.id
          offset := (mayCreateNewDataFile m0).cur.content.length
          size := (encBytes 0 k v).length } := hq
    rcases mem_iupsert hq2 with hold | hnew
    · rw [(roll_parts m0).1] at hold
      obtain ⟨r, hr, hk, hc⟩ := ih q hold
      refine ⟨r, ?_, hk, hc⟩
      rw [hm]
      exact readEntryRecord_extendCur _ _ _
        (by rw [readEntryRecord_roll hw0 _ (hw0.indexLe q hold)]; exact hr)
    · subst hnew
      refine ⟨decRec 0 k v, ?_, ?_, decRec_corrupted 0 k v⟩
      · rw [hm]
        unfold readEntryRecord
        have h1 : resolveFile
            { mayCreateNewDataFile m0 with
              cur := { (mayCreateNewDataFile m0).cur with
                       content := (mayCreateNewDataFile m0).cur.content ++ encBytes 0 k v }
              meta := (match ilookup (mayCreateNewDataFile m0).index k with
                | some old =>
                  { (mayCreateNewDataFile m0).meta with
                    reusableSpace := wrap64 ((mayCreateNewDataFile m0).meta.reusableSpace +
                      int64OfUInt64 old.size) }
                | none => (mayCreateNewDataFile m0).meta)
              index := iupsert (mayCreateNewDataFile m0).index k
                { id := (mayCreateNewDataFile m0).cur.id
                  offset := (mayCreateNewDataFile m0).cur.content.length
                  size := (encBytes 0 k v).length } }
            (mayCreateNewDataFile m0).cur.id =
            some { (mayCreateNewDataFile m0).cur with
                   content := (mayCreateNewDataFile m0).cur.content ++ encBytes 0 k v } := by
          unfold resolveFile
          rw [if_pos rfl]
        rw [h1]
        show ReadEntireRecordAt ((mayCreateNewDataFile m0).cur.content ++ encBytes 0 k v)
          (mayCreateNewDataFile m0).cur.content.length (encBytes 0 k v).length =
          some (decRec 0 k v)
        rw [ReadEntireRecordAt_append, DecodeRecord_encBytes 0 k v hks hcs]
      · show (decRec 0 k v).key = k
        unfold decRec
        show k.take (k.length % 65536) = k
        rw [Nat.mod_eq_of_lt hklen, List.take_length]
  | del hre hdel ih =>
    rename_i m0 m0' k
    obtain ⟨bytes, henc, hro, hm⟩ := Delete_inv hdel
    have hw0 := reachableB_wf hre
    intro q hq
    rw [hm] at hq
    have hq2 : q ∈ iremove (mayCreateNewDataFile m0).index k := hq
    have hold := mem_iremove hq2
    rw [(roll_parts m0).1] at hold
    obtain ⟨r, hr, hk, hc⟩ := ih q hold
    refine ⟨r, ?_, hk, hc⟩
    rw [hm]
    exact readEntryRecord_extendCur _ _ _
      (by rw [readEntryRecord_roll hw0 _ (hw0.indexLe q hold)]; exact hr)

/-! ### What tail recovery computes (claim C4) -/

/-- The byte offsets delimiting prefixes of checksum-valid records: `0`
is one, and each valid record read at a valid offset extends it. -/
inductive ValidOffset (content : List Nat) : Nat → Prop
  | zero : ValidOffset content 0
  | step {o : Nat} {r : Record} : ValidOffset content o →
      ReadRecordAt content o = ReadOutcome.ok r → r.Corrupted = false →
      ValidOffset content (o + r.recSize)

/-- `n` is the byte length of the longest prefix of checksum-valid
records of `content`. -/
def MaxValidOffset (content : List Nat) (n : Nat) : Prop :=
  ValidOffset content n ∧ ∀ o, ValidOffset content o → o ≤ n

theorem recoverLoop_ge (content : List Nat) :
    ∀ o n, recoverLoop content o = some n → o ≤ n := by
  have key : ∀ fuel o n, content.length + 1 - o ≤ fuel →
      recoverLoop content o = some n → o ≤ n := by
    intro fuel
    induction fuel with
    | zero =>
      intro o n hf h
      rw [recoverLoop_eq, ReadRecordAt_eof_of_short (by omega)] at h
      have h2 : some o = some n := h
      have h3 := Option.some_inj.mp h2
      omega
    | succ fuel ih =>
      intro o n hf h
      rw [recoverLoop_eq] at h
      cases hr : ReadRecordAt content o with
      | eof =>
        rw [hr] at h
        have h2 : some o = some n := h
        have h3 := Option.some_inj.mp h2
        omega
      | crash =>
        rw [hr] at h
        exact absurd (show (none : Option Nat) = some n from h) (by simp)
      | ok r =>
        rw [hr] at h
        have h2 : (if r.Corrupted = true then some o
            else recoverLoop content (o + r.recSize)) = some n := h
        split at h2
        · have h3 := Option.some_inj.mp h2
          omega
        · have hb := ReadRecordAt_bounds hr
          have h4 := ih (o + r.recSize) n (by omega) h2
          omega
  exact fun o n h => key (content.length + 1) o n (by omega) h

theorem recoverLoop_valid (content : List Nat) :
    ∀ o n, recoverLoop content o = some n → ValidOffset content o →
      ValidOffset content n := by
  have key : ∀ fuel o n, content.length + 1 - o ≤ fuel →
      recoverLoop content o = some n → ValidOffset content o →
      ValidOffset content n := by
    intro fuel
    induction fuel with
    | zero =>
      intro o n hf h ho
      rw [recoverLoop_eq, ReadRecordAt_eof_of_short (by omega)] at h
      have h2 : some o = some n := h
      obtain rfl := Option.some_inj.mp h2
      exact ho
    | succ fuel ih =>
      intro o n hf h ho
      rw [recoverLoop_eq] at h
      cases hr : ReadRecordAt content o with
      | eof =>
        rw [hr] at h
        have h2 : some o = some n := h
        obtain rfl := Option.some_inj.mp h2
        exact ho
      | crash =>
        rw [hr] at h
        exact absurd (show (none : Option Nat) = some n from h) (by simp)
      | ok r =>
        rw [hr] at h
        have h2 : (if r.Corrupted = true then some o
            else recoverLoop content (o + r.recSize)) = some n := h
        split at h2
        · obtain rfl := Option.some_inj.mp h2
          exact ho
        · rename_i hc
          have hb := ReadRecordAt_bounds hr
          exact ih (o + r.recSize) n (by omega) h2
            (ValidOffset.step ho hr (by simpa using hc))
  exact fun o n h ho => key (content.length + 1) o n (by omega) h ho

theorem recoverLoop_of_valid (content : List Nat) {o : Nat}
    (h : ValidOffset content o) : recoverLoop content o = recoverLoop content 0 := by
  induction h with
  | zero => rfl
  | step ho hr hc ih =>
    rename_i o2 r
    rw [← ih]
    have h2 : recoverLoop content o2 = recoverLoop content (o2 + r.recSize) := by
      conv_lhs => rw [recoverLoop_eq]
      rw [hr]
      simp [hc]
    rw [h2]

theorem valid_le_recoverLoop (content : List Nat) {o n : Nat}
    (h : ValidOffset content o) (hn : recoverLoop content 0 = some n) : o ≤ n := by
  have h1 := recoverLoop_of_valid content h
  exact recoverLoop_ge content o n (by rw [h1, hn])

theorem recoverLoop_eq_max {content : List Nat} {n : Nat}
    (h : MaxValidOffset content n)
    (hnc : ReadRecordAt content n ≠ ReadOutcome.crash) :
    recoverLoop content 0 = some n := by
  have hstop : recoverLoop content n = some n := by
    rw [recoverLoop_eq]
    cases hr : ReadRecordAt content n with
    | eof => rfl
    | crash => exact absurd hr hnc
    | ok r =>
      show (if r.Corrupted = true then some n
          else recoverLoop content (n + r.recSize)) = some n
      split
      · rfl
      · rename_i hc
        have hb := ReadRecordAt_bounds hr
        have hv := ValidOffset.step h.1 hr (by simpa using hc)
        have hle := h.2 _ hv
        exact absurd hle (by omega)
  rw [← recoverLoop_of_valid content h.1]
  exact hstop

/-! ### Concrete artifacts used by the claim theorems -/

/-- The on-disk bytes of a tombstone record for key `[1]`. -/
def tombBytes : List Nat :=
  (EncodeRecordWithChecksum ((NewRecordWithoutChecksum 0 [1] []).SetDeleted)).getD []

/-- A 65529-byte key: inside the documented 65535-byte limit, but large
enough that `keyBegin + ksize` wraps a `uint16`. -/
def key65529 : List Nat := List.replicate 65529 0

/-- A 65536-byte key: one past the `uint16` range, reduced size 0. -/
def key65536 : List Nat := List.replicate 65536 0

/-- A 131065-byte key: reduced size 65529, which wraps the `uint16`
offset. -/
def key131065 : List Nat := List.replicate 131065 0

theorem key65529_length : key65529.length = 65529 := by
  rw [show key65529 = List.replicate 65529 0 from rfl, List.length_replicate]

theorem key65536_length : key65536.length = 65536 := by
  rw [show key65536 = List.replicate 65536 0 from rfl, List.length_replicate]

theorem key131065_length : key131065.length = 131065 := by
  rw [show key131065 = List.replicate 131065 0 from rfl, List.length_replicate]

/-- A data file holding one valid tombstone record followed by three
bytes of junk. -/
def c4file : List Nat := tombBytes ++ [9, 9, 9]

/-! ### The claims -/

/-- C1: for any key of at most 65535 bytes and value of at most
`2 ^ 32 - 1` bytes, after a `Put(k, v)` succeeds on a reachable engine
state, a `Get(k)` issued with no intervening `Put` or `Delete` on `k`
(any successful operations on other keys, and rollovers, may intervene)
returns bytes equal to `v`. -/
theorem c1_put_then_get {config : Config} {m m1 m2 : MKV} {key value : List Nat}
    (hreach : Reachable config m)
    (hkey : key.length ≤ 65535) (hvalue : value.length ≤ 4294967295)
    (hput : Put m key value = some m1)
    (hops : OtherOps key m1 m2) :
    Get m2 key = .found value :=
  (Get_otherOps (wf_put (reachable_wf hreach) hput) hops
    (Get_put_self hput (by omega))).1

theorem c1_witness :
    [(1 : Nat)].length ≤ 65535 ∧ [(2 : Nat)].length ≤ 4294967295 ∧
    Get ((Put (mkvInit DefaultConfig) [1] [2]).getD (mkvInit DefaultConfig)) [1] =
      .found [2] := by
  refine ⟨by norm_num, by norm_num, ?_⟩
  cases hput : Put (mkvInit DefaultConfig) [1] [2] with
  | none => exact absurd hput (by decide)
  | some m1 =>
    show Get m1 [1] = .found [2]
    exact c1_put_then_get Reachable.init (by norm_num) (by norm_num) hput
      (OtherOps.refl m1)

/-- C2 (code bug): the claim asserts the codec round-trips for every key
of at most 65535 bytes, but for a key of 65529 bytes — inside the
claimed domain — the `uint16` offset `keyBegin + ksize` wraps to 0 and
the slice `bytes[7:0]` panics: `EncodeRecordWithChecksum` returns no
buffer at all. -/
theorem c2_encode_panics_within_claimed_domain :
    key65529.length ≤ 65535 ∧
    EncodeRecordWithChecksum (NewRecordWithoutChecksum 0 key65529 []) = none := by
  constructor
  · rw [key65529_length]; norm_num
  · exact encode_wrap_none 0 key65529 [] (by rw [key65529_length])

/-- C3 (code bug): rebuilding the index from a data file that ends with
a tombstone leaves the tombstoned key PRESENT in the index — the loop
deletes the key and then unconditionally upserts the tombstone record
(mkv.go lines 168-176 lack the `else`), while the claim and spec say the
key must be absent. -/
theorem c3_rebuild_resurrects_tombstone :
    ((NewRecordWithoutChecksum 0 [1] []).SetDeleted).IsDeleted = true ∧
    LoadIndexFromDataFiles [] [(0, tombBytes)] =
      some [([1], { id := 0, offset := 0, size := 12 })] := by decide

/-- C4 (corrected): when the scan's stopping offset `n` — the byte
length of the longest prefix of checksum-valid records — does not hit a
record header whose wrapped `uint32` payload size falls below `ksize`
(the read there does not panic), tail recovery truncates the file to
`n` and returns `true` exactly when `n` differs from the file length;
when every record is valid up to the exact end it returns `false` and
leaves the content unchanged.  Without the no-panic proviso the claim
fails: see the counterexample. -/
theorem c4_recover_truncates_to_valid_front (content : List Nat) (n : Nat)
    (h : MaxValidOffset content n)
    (hnc : ReadRecordAt content n ≠ ReadOutcome.crash) :
    RecoverDataFile content = some (decide (n ≠ content.length), content.take n) ∧
    (n = content.length → RecoverDataFile content = some (false, content)) := by
  have hL := recoverLoop_eq_max h hnc
  constructor
  · simp only [RecoverDataFile, hL]
    by_cases hn : n = content.length
    · simp [hn, List.take_length]
    · simp [hn]
  · intro hn
    simp only [RecoverDataFile, hL]
    rw [if_pos hn]

theorem c4_witness :
    MaxValidOffset c4file 12 ∧ ReadRecordAt c4file 12 ≠ ReadOutcome.crash ∧
    RecoverDataFile c4file = some (true, tombBytes) := by
  have hr : ReadRecordAt c4file 0 =
      ReadOutcome.ok { flag := 1, ksize := 1, vsize := 0, key := [1], value := [],
                       checksum := 366165188 } := by decide
  have hmax : MaxValidOffset c4file 12 := by
    constructor
    · exact ValidOffset.step ValidOffset.zero hr (by decide)
    · intro o ho
      have hor : o = 0 ∨ o = 12 := by
        induction ho with
        | zero => exact Or.inl rfl
        | step ho2 hr2 hc2 ih =>
          rename_i o2 r2
          rcases ih with h0 | h12
          · subst h0
            rw [hr] at hr2
            have he := ReadOutcome.ok.inj hr2
            right
            rw [← he]
            decide
          · subst h12
            rw [show ReadRecordAt c4file 12 = ReadOutcome.eof from by decide] at hr2
            exact absurd hr2 (by simp)
      omega
  refine ⟨hmax, by decide, ?_⟩
  rw [(c4_recover_truncates_to_valid_front c4file 12 hmax (by decide)).1]
  decide

/-- An 11-byte data file whose single record header declares
`ksize = 1` and `vsize = 2 ^ 32 - 1`: the `uint32` payload size wraps
to `0 < ksize`, so after its three successful reads `ReadRecordAt`
panics at `payload[:ksize]`. -/
def c4crashFile : List Nat := [0, 0, 1, 255, 255, 255, 255, 9, 9, 9, 9]

/-- C4 counterexample: on `c4crashFile` the longest prefix of
checksum-valid records is empty and its length 0 differs from the file
length 11, so the claim demands truncation to the empty prefix with
return value `true`; the program instead panics inside `ReadRecordAt`
— `RecoverDataFile` truncates nothing and returns nothing. -/
theorem c4_cex_recover_crashes_on_wrapped_size :
    MaxValidOffset c4crashFile 0 ∧ (0 : Nat) ≠ c4crashFile.length ∧
    RecoverDataFile c4crashFile = none := by
  refine ⟨⟨ValidOffset.zero, ?_⟩, by decide, by decide⟩
  intro o ho
  induction ho with
  | zero => exact Nat.le_refl 0
  | step ho2 hr2 hc2 ih =>
    rename_i o2 r2
    have ho0 : o2 = 0 := Nat.le_antisymm ih (Nat.zero_le _)
    rw [ho0, show ReadRecordAt c4crashFile 0 = ReadOutcome.crash from by decide] at hr2
    exact absurd hr2 (by simp)

/-- C10 (corrected): the constructor does store the key length modulo
`2 ^ 16` in `ksize`, and when the record avoids both encoder offset
wraps — the reduced key size is at most 65528 (`uint16` value offset)
and the total size `7 + ksize + vsize + 4` is below `2 ^ 32` (`uint32`
checksum offset) — encode-then-decode yields a strict truncation of the
key; outside these bounds the encoder panics instead (for reduced key
sizes in `[65529, 65535]`, see the counterexample), so the claim as
stated is false. -/
theorem c10_modular_truncation {flag : Nat} {key value : List Nat}
    (hbig : key.length > 65535)
    (hks : key.length % 65536 ≤ 65528)
    (hcs : 7 + key.length % 65536 + value.length % 4294967296 + 4 < 4294967296) :
    (NewRecordWithoutChecksum flag key value).ksize = key.length % 65536 ∧
    ∃ bytes r2,
      EncodeRecordWithChecksum (NewRecordWithoutChecksum flag key value) = some bytes ∧
      DecodeRecord bytes = some r2 ∧
      r2.key = key.take (key.length % 65536) ∧
      r2.key ≠ key := by
  refine ⟨rfl, encBytes flag key value, decRec flag key value,
    EncodeRecordWithChecksum_eq flag key value hks hcs,
    DecodeRecord_encBytes flag key value hks hcs, rfl, ?_⟩
  intro he
  have hlen : (key.take (key.length % 65536)).length = key.length % 65536 :=
    List.length_take_of_le (Nat.mod_le _ _)
  have hlt : key.length % 65536 < 65536 := Nat.mod_lt _ (by norm_num)
  have he2 : key.take (key.length % 65536) = key := he
  rw [he2] at hlen
  omega

theorem c10_witness :
    key65536.length > 65535 ∧
    ((NewRecordWithoutChecksum 0 key65536 []).ksize = key65536.length % 65536 ∧
      ∃ bytes r2,
        EncodeRecordWithChecksum (NewRecordWithoutChecksum 0 key65536 []) = some bytes ∧
        DecodeRecord bytes = some r2 ∧
        r2.key = key65536.take (key65536.length % 65536) ∧
        r2.key ≠ key65536) :=
  ⟨by rw [key65536_length]; norm_num,
    c10_modular_truncation (by rw [key65536_length]; norm_num)
      (by rw [key65536_length]; norm_num) (by rw [key65536_length]; norm_num)⟩

/-- C10 counterexample: for the 131065-byte key the reduced size is
65529, the `uint16` offset wraps, and encoding panics — no decoded
truncation of the key exists, contradicting the claim's universally
quantified consequence for keys longer than 65535 bytes. -/
theorem c10_cex_encode_panics :
    key131065.length > 65535 ∧
    EncodeRecordWithChecksum (NewRecordWithoutChecksum 0 key131065 []) = none := by
  constructor
  · rw [key131065_length]; norm_num
  · exact encode_wrap_none 0 key131065 [] (by rw [key131065_length])

theorem roll_readOnly {m : MKV} (h : m.cur.readOnly = false) :
    (mayCreateNewDataFile m).cur.readOnly = false := by
  unfold mayCreateNewDataFile
  split
  · exact h
  · rfl

/-- Setting the deleted bit on a freshly built tombstone record equals
building it with flag 1. -/
theorem tomb_eq (key : List Nat) :
    (NewRecordWithoutChecksum 0 key []).SetDeleted = NewRecordWithoutChecksum 1 key [] := by
  simp [NewRecordWithoutChecksum, Record.SetDeleted]

theorem tomb_isDeleted (key : List Nat) :
    ((NewRecordWithoutChecksum 0 key []).SetDeleted).IsDeleted = true := by
  simp [NewRecordWithoutChecksum, Record.SetDeleted, Record.IsDeleted]

theorem roll_mkvInit :
    mayCreateNewDataFile (mkvInit DefaultConfig) = mkvInit DefaultConfig := by
  simp [mayCreateNewDataFile, mkvInit, DefaultConfig]

/-- A failing tombstone append makes `Delete` fail. -/
theorem Delete_none_of_append {m : MKV} {key : List Nat}
    (h : AppendRecord (mayCreateNewDataFile m).cur
      ((NewRecordWithoutChecksum 0 key []).SetDeleted) = none) :
    Delete m key = none := by
  simp only [Delete, h]

/-- C5 counterexample: a `Delete` of an absent 65529-byte key does not
return success — the tombstone encoder panics on the wrapped `uint16`
offset — although the claim promises success for any absent key. -/
theorem c5_cex_delete_of_absent_key_fails :
    ilookup (mkvInit DefaultConfig).index key65529 = none ∧
    Delete (mkvInit DefaultConfig) key65529 = none := by
  refine ⟨rfl, ?_⟩
  have henc : EncodeRecordWithChecksum ((NewRecordWithoutChecksum 0 key65529 []).SetDeleted) =
      none := by
    rw [tomb_eq]
    exact encode_wrap_none 1 key65529 [] (by rw [key65529_length])
  apply Delete_none_of_append
  rw [roll_mkvInit]
  unfold AppendRecord
  rw [henc]
  simp [mkvInit]

/-- C5 (corrected): after a successful `Delete(k)`, every `Get(k)` with
no intervening `Put(k, ...)` returns KeyNotFound; and a `Delete` of an
absent key appends a tombstone record to the active file and succeeds
PROVIDED the tombstone encodes — its reduced key size must be at most
65528, which the claim as stated omits (see the counterexample). -/
theorem c5_delete_semantics (m : MKV) (key : List Nat) :
    (∀ m1 m2, Delete m key = some m1 → NoPutOps key m1 m2 →
      Get m2 key = .keyNotFound) ∧
    (m.cur.readOnly = false → key.length % 65536 ≤ 65528 →
      ilookup m.index key = none →
      ∃ m1 bytes,
        EncodeRecordWithChecksum ((NewRecordWithoutChecksum 0 key []).SetDeleted) =
          some bytes ∧
        Delete m key = some m1 ∧
        m1.cur.content = (mayCreateNewDataFile m).cur.content ++ bytes ∧
        ((NewRecordWithoutChecksum 0 key []).SetDeleted).IsDeleted = true) := by
  constructor
  · intro m1 m2 hdel hops
    obtain ⟨bytes, henc, hro, hm⟩ := Delete_inv hdel
    have habs : ilookup m1.index key = none := by
      rw [hm]
      show ilookup (iremove _ key) key = none
      exact ilookup_iremove_self _ _
    exact Get_keyNotFound_of_absent (absent_noPutOps hops habs)
  · intro hcur hks habs
    have hro : (mayCreateNewDataFile m).cur.readOnly = false := roll_readOnly hcur
    have henc : EncodeRecordWithChecksum ((NewRecordWithoutChecksum 0 key []).SetDeleted) =
        some (encBytes 1 key []) := by
      rw [tomb_eq]
      exact EncodeRecordWithChecksum_eq 1 key [] hks
        (by simp only [List.length_nil]; omega)
    have habs2 : ilookup (mayCreateNewDataFile m).index key = none := by
      rw [(roll_parts m).1]; exact habs
    have happ : AppendRecord (mayCreateNewDataFile m).cur
        ((NewRecordWithoutChecksum 0 key []).SetDeleted) =
        some ({ (mayCreateNewDataFile m).cur with
                content := (mayCreateNewDataFile m).cur.content ++ encBytes 1 key [] },
          (mayCreateNewDataFile m).cur.content.length, (encBytes 1 key []).length) := by
      unfold AppendRecord
      rw [if_neg (by rw [hro]; simp), henc]
    refine ⟨{ mayCreateNewDataFile m with
              cur := { (mayCreateNewDataFile m).cur with
                       content := (mayCreateNewDataFile m).cur.content ++ encBytes 1 key [] }
              index := iremove (mayCreateNewDataFile m).index key },
      encBytes 1 key [], henc, ?_, rfl, tomb_isDeleted key⟩
    simp only [Delete, happ, habs2]

theorem c5_witness :
    (mkvInit DefaultConfig).cur.readOnly = false ∧
    [(1 : Nat)].length % 65536 ≤ 65528 ∧
    ilookup (mkvInit DefaultConfig).index [1] = none ∧
    (∃ m1 bytes,
      EncodeRecordWithChecksum ((NewRecordWithoutChecksum 0 [1] []).SetDeleted) =
        some bytes ∧
      Delete (mkvInit DefaultConfig) [1] = some m1 ∧
      m1.cur.content = (mayCreateNewDataFile (mkvInit DefaultConfig)).cur.content ++ bytes ∧
      ((NewRecordWithoutChecksum 0 [1] []).SetDeleted).IsDeleted = true) ∧
    Get ((Delete (mkvInit DefaultConfig) [1]).getD (mkvInit DefaultConfig)) [1] =
      .keyNotFound := by
  refine ⟨rfl, by norm_num, rfl,
    (c5_delete_semantics (mkvInit DefaultConfig) [1]).2 rfl (by norm_num) rfl, ?_⟩
  cases hdel : Delete (mkvInit DefaultConfig) [1] with
  | none => exact absurd hdel (by decide)
  | some m1 =>
    show Get m1 [1] = .keyNotFound
    exact (c5_delete_semantics (mkvInit DefaultConfig) [1]).1 m1 m1 hdel
      (NoPutOps.refl m1)

/-- An engine state about to close, holding one index entry. -/
def c6state : MKV :=
  { config := DefaultConfig
    meta := { indexUpToDate := false, reusableSpace := 0 }
    cur := { id := 0, content := [], readOnly := false }
    dataFiles := []
    index := [([1], { id := 0, offset := 0, size := 12 })]
    isMerging := false }

/-- C6 (code bug): `close` does flip `index_up_to_date` to true, but
`SaveIndex` opens the `index` file without `O_TRUNC`, so with a longer
pre-existing file the result is the serialization plus stale trailing
bytes — not "every pair and no other bytes" — and `LoadIndex` then fails
on the stale suffix, while a cleanly truncated file would reload the
index exactly. -/
theorem c6_close_keeps_stale_index_bytes :
    (engineClose c6state (List.replicate 100 7)).1.meta.indexUpToDate = true ∧
    (engineClose c6state (List.replicate 100 7)).2 ≠ serializeIndex c6state.index ∧
    LoadIndex [] (engineClose c6state (List.replicate 100 7)).2 = none ∧
    LoadIndex [] (serializeIndex c6state.index) = some c6state.index := by decide

/-- The bytes of one valid normal record for key `[1]`, value `[2]`. -/
def rbBytes : List Nat :=
  (EncodeRecordWithChecksum (NewRecordWithoutChecksum 0 [1] [2])).getD []

/-- A directory left by a clean close (meta flags the index fresh)
whose index file is gone, holding a single data file with one valid
record. -/
def c7disk : Disk :=
  { meta := some { indexUpToDate := true, reusableSpace := 0 }
    dataFiles := [(0, rbBytes)]
    indexFile := none }

/-- C7 (code bug): `Open` completes — recovery runs, the index is
rebuilt — yet `meta.index_up_to_date` is still `true`: no statement in
`Open` (mkv.go lines 41-122) ever assigns it `false`, although the spec
requires step 8 to do so, so a later crash leaves a stale trusted
snapshot. -/
theorem c7_open_never_clears_index_up_to_date :
    (OpenM DefaultConfig c7disk).map (fun m => m.meta.indexUpToDate) = some true ∧
    (OpenM DefaultConfig c7disk).map (fun m => m.index) =
      some [([1], { id := 0, offset := 0, size := 13 })] := by decide

/-- C8: `reusable_space` never decreases across a `Put` or a `Delete`
(within `int64` range): when the key was present the superseded entry's
size is added, otherwise the counter is unchanged; and the merge
finalization resets it to exactly 0 (reload never touches meta). -/
theorem c8_reusable_space_behaviour :
    (∀ (m m1 : MKV) (key value : List Nat),
      Put m key value = some m1 →
      -9223372036854775808 ≤ m.meta.reusableSpace →
      (∀ e, ilookup m.index key = some e →
        (e.size : Int) < 9223372036854775808 ∧
        m.meta.reusableSpace + (e.size : Int) < 9223372036854775808) →
      (ilookup m.index key = none → m1.meta.reusableSpace = m.meta.reusableSpace) ∧
      (∀ e, ilookup m.index key = some e →
        m1.meta.reusableSpace = m.meta.reusableSpace + (e.size : Int)) ∧
      m.meta.reusableSpace ≤ m1.meta.reusableSpace) ∧
    (∀ (m m1 : MKV) (key : List Nat),
      Delete m key = some m1 →
      -9223372036854775808 ≤ m.meta.reusableSpace →
      (∀ e, ilookup m.index key = some e →
        (e.size : Int) < 9223372036854775808 ∧
        m.meta.reusableSpace + (e.size : Int) < 9223372036854775808) →
      (ilookup m.index key = none → m1.meta.reusableSpace = m.meta.reusableSpace) ∧
      (∀ e, ilookup m.index key = some e →
        m1.meta.reusableSpace = m.meta.reusableSpace + (e.size : Int)) ∧
      m.meta.reusableSpace ≤ m1.meta.reusableSpace) ∧
    (∀ (m : MKV) (cur : DFile) (dataFiles : List (Nat × DFile)) (index : Index),
      (mergeFinalize m cur dataFiles index).meta.reusableSpace = 0) := by
  have core : ∀ (m : MKV) (key : List Nat) (meta1 : Meta),
      -9223372036854775808 ≤ m.meta.reusableSpace →
      (∀ e, ilookup m.index key = some e →
        (e.size : Int) < 9223372036854775808 ∧
        m.meta.reusableSpace + (e.size : Int) < 9223372036854775808) →
      meta1 = (match ilookup (mayCreateNewDataFile m).index key with
        | some old =>
          { (mayCreateNewDataFile m).meta with
            reusableSpace := wrap64 ((mayCreateNewDataFile m).meta.reusableSpace +
              int64OfUInt64 old.size) }
        | none => (mayCreateNewDataFile m).meta) →
      (ilookup m.index key = none → meta1.reusableSpace = m.meta.reusableSpace) ∧
      (∀ e, ilookup m.index key = some e →
        meta1.reusableSpace = m.meta.reusableSpace + (e.size : Int)) ∧
      m.meta.reusableSpace ≤ meta1.reusableSpace := by
    intro m key meta1 hlo hbound hmeta
    rw [(roll_parts m).1, (roll_parts m).2.1] at hmeta
    cases hl : ilookup m.index key with
    | none =>
      rw [hl] at hmeta
      subst hmeta
      exact ⟨fun _ => rfl, fun e he => absurd he (by simp [hl]), Int.le_refl _⟩
    | some old =>
      rw [hl] at hmeta
      subst hmeta
      obtain ⟨hs1, hs2⟩ := hbound old hl
      have hsz : int64OfUInt64 old.size = (old.size : Int) := by
        unfold int64OfUInt64
        rw [Nat.mod_eq_of_lt (by
          have : (old.size : Int) < (9223372036854775808 : Int) := hs1
          omega)]
        rw [if_pos (by
          have : (old.size : Int) < (9223372036854775808 : Int) := hs1
          omega)]
      have hw : wrap64 (m.meta.reusableSpace + int64OfUInt64 old.size) =
          m.meta.reusableSpace + (old.size : Int) := by
        rw [hsz]
        have h0 : (0 : Int) ≤ (old.size : Int) := Int.natCast_nonneg _
        exact wrap64_eq_self (by omega) (by omega)
      refine ⟨fun habs => absurd habs (by simp), ?_, ?_⟩
      · intro e he
        obtain rfl := Option.some_inj.mp he
        exact hw
      · show m.meta.reusableSpace ≤ wrap64 (m.meta.reusableSpace + int64OfUInt64 old.size)
        rw [hw]
        have h0 : (0 : Int) ≤ (old.size : Int) := Int.natCast_nonneg _
        omega
  refine ⟨?_, ?_, ?_⟩
  · intro m m1 key value hput hlo hbound
    obtain ⟨bytes, henc, hro, hm⟩ := Put_inv hput
    exact core m key m1.meta hlo hbound (by rw [hm])
  · intro m m1 key hdel hlo hbound
    obtain ⟨bytes, henc, hro, hm⟩ := Delete_inv hdel
    exact core m key m1.meta hlo hbound (by rw [hm])
  · intro m cur dataFiles index
    rfl

/-- An engine state with 5 reusable bytes and one 12-byte entry. -/
def c8state : MKV :=
  { config := DefaultConfig
    meta := { indexUpToDate := false, reusableSpace := 5 }
    cur := { id := 0, content := [], readOnly := false }
    dataFiles := []
    index := [([1], { id := 0, offset := 0, size := 12 })]
    isMerging := false }

theorem c8_witness :
    -9223372036854775808 ≤ c8state.meta.reusableSpace ∧
    ((Put c8state [1] [2]).getD c8state).meta.reusableSpace = 17 ∧
    c8state.meta.reusableSpace ≤ ((Put c8state [1] [2]).getD c8state).meta.reusableSpace := by
  have hbound : ∀ e, ilookup c8state.index [1] = some e →
      (e.size : Int) < 9223372036854775808 ∧
      c8state.meta.reusableSpace + (e.size : Int) < 9223372036854775808 := by
    intro e he
    have he2 : e = { id := 0, offset := 0, size := 12 } := by
      rw [show ilookup c8state.index [1] =
        some { id := 0, offset := 0, size := 12 } from rfl] at he
      exact (Option.some_inj.mp he).symm
    subst he2
    constructor <;> norm_num [c8state]
  cases hput : Put c8state [1] [2] with
  | none => exact absurd hput (by decide)
  | some m1 =>
    have h := c8_reusable_space_behaviour.1 c8state m1 [1] [2] hput
      (by norm_num [c8state]) hbound
    have heq := h.2.1 { id := 0, offset := 0, size := 12 } rfl
    refine ⟨by norm_num [c8state], ?_, ?_⟩
    · show m1.meta.reusableSpace = 17
      rw [heq]
      norm_num [c8state]
    · show c8state.meta.reusableSpace ≤ m1.meta.reusableSpace
      exact h.2.2

/-- Unfolding a `Put` whose append is known to succeed. -/
theorem Put_eq_of_append {m : MKV} {key value : List Nat} {t : DFile × Nat × Nat}
    (h : AppendRecord (mayCreateNewDataFile m).cur (NewRecordWithoutChecksum 0 key value) =
      some t) :
    Put m key value = some
      { mayCreateNewDataFile m with
        cur := t.1
        meta := (match ilookup (mayCreateNewDataFile m).index key with
          | some old =>
            { (mayCreateNewDataFile m).meta with
              reusableSpace := wrap64 ((mayCreateNewDataFile m).meta.reusableSpace +
                int64OfUInt64 old.size) }
          | none => (mayCreateNewDataFile m).meta)
        index := iupsert (mayCreateNewDataFile m).index key
          { id := t.1.id, offset := t.2.1, size := t.2.2 } } := by
  simp only [Put, h]

/-- The engine state after putting a 65536-byte key into a fresh engine. -/
def c9state : MKV :=
  { config := DefaultConfig
    meta := { indexUpToDate := false, reusableSpace := 0 }
    cur := { id := 0, content := encBytes 0 key65536 [], readOnly := false }
    dataFiles := []
    index := [(key65536,
      { id := 0, offset := 0, size := (encBytes 0 key65536 []).length })]
    isMerging := false }

/-- A successful append on a writable file. -/
theorem AppendRecord_writable {df : DFile} {r : Record} {bytes : List Nat}
    (hro : df.readOnly = false) (henc : EncodeRecordWithChecksum r = some bytes) :
    AppendRecord df r = some ({ df with content := df.content ++ bytes },
      df.content.length, bytes.length) := by
  unfold AppendRecord
  rw [if_neg (by rw [hro]; simp), henc]

theorem c9put : Put (mkvInit DefaultConfig) key65536 [] = some c9state := by
  have henc : EncodeRecordWithChecksum (NewRecordWithoutChecksum 0 key65536 []) =
      some (encBytes 0 key65536 []) :=
    EncodeRecordWithChecksum_eq 0 key65536 []
      (by rw [key65536_length]; norm_num) (by rw [key65536_length]; norm_num)
  have happ : AppendRecord (mayCreateNewDataFile (mkvInit DefaultConfig)).cur
      (NewRecordWithoutChecksum 0 key65536 []) =
      some ({ id := 0, content := encBytes 0 key65536 [], readOnly := false }, 0,
        (encBytes 0 key65536 []).length) := by
    rw [roll_mkvInit]
    have h2 := @AppendRecord_writable (mkvInit DefaultConfig).cur _ _ rfl henc
    rw [h2, show (mkvInit DefaultConfig).cur.content = ([] : List Nat) from rfl,
      List.nil_append]
    rfl
  rw [Put_eq_of_append happ, roll_mkvInit]
  rfl

theorem decRec_key (flag : Nat) (key value : List Nat) :
    (decRec flag key value).key = key.take (key.length % 65536) := rfl

/-- C9 counterexample: a single `Put` of a 65536-byte key reaches a
state where the indexed key reads back as a record whose key is the
empty truncation, not the indexed key — the invariant claimed for every
reachable state fails. -/
theorem c9_cex_big_key_breaks_invariant :
    Reachable DefaultConfig c9state ∧ ¬ Consistent c9state := by
  have hks : key65536.length % 65536 ≤ 65528 := by rw [key65536_length]; norm_num
  have hcs : 7 + key65536.length % 65536 + ([] : List Nat).length % 4294967296 + 4 <
      4294967296 := by rw [key65536_length]; norm_num
  constructor
  · exact Reachable.put Reachable.init c9put
  · intro hcons
    obtain ⟨r, hr, hkey, hcorr⟩ := hcons
      (key65536, { id := 0, offset := 0, size := (encBytes 0 key65536 []).length })
      (List.mem_cons_self _ _)
    have hread : readEntryRecord c9state
        { id := 0, offset := 0, size := (encBytes 0 key65536 []).length } =
        some (decRec 0 key65536 []) := by
      unfold readEntryRecord
      rw [show resolveFile c9state 0 = some c9state.cur from by
        unfold resolveFile
        rw [show c9state.cur.id = 0 from rfl, if_pos rfl]]
      have h1 := ReadEntireRecordAt_append [] (encBytes 0 key65536 [])
      rw [List.nil_append, List.length_nil] at h1
      show ReadEntireRecordAt (encBytes 0 key65536 []) 0
        (encBytes 0 key65536 []).length = some (decRec 0 key65536 [])
      rw [h1, DecodeRecord_encBytes 0 key65536 [] hks hcs]
    rw [hread] at hr
    obtain rfl := Option.some_inj.mp hr
    have hk0 : (decRec 0 key65536 []).key = [] := by
      rw [decRec_key, key65536_length]
      norm_num
    rw [hk0] at hkey
    have hlen := congrArg List.length hkey
    rw [key65536_length] at hlen
    exact absurd hlen (by norm_num)

/-- C9 (corrected): in every state reachable by engine operations whose
`Put` keys are shorter than 65536 bytes — the documented key-size
domain — every index entry reads back a record with that key and a
matching checksum; without the key bound the invariant fails (see the
counterexample). -/
theorem c9_index_entries_consistent {config : Config} {m : MKV}
    (h : ReachableB config m) : Consistent m :=
  consistent_of_reachableB h

theorem c9_witness :
    Consistent ((Put (mkvInit DefaultConfig) [1] [2]).getD (mkvInit DefaultConfig)) := by
  cases hput : Put (mkvInit DefaultConfig) [1] [2] with
  | none => exact absurd hput (by decide)
  | some m1 =>
    show Consistent m1
    exact c9_index_entries_consistent (ReachableB.put ReachableB.init (by norm_num) hput)

end Mos
